import Mathlib

/-!
Verification of the modulus-chain construction subsystem (primeChain.cpp)
of a BGV/CKKS-style homomorphic-encryption library.

The development shallowly embeds:
  * `PrimeGenerator` (stateful generator of primes `2^k*t*m + 1`),
  * the `ModuliSizes` table (`init`, `getSet4Size`, serialization),
  * the three chain-building passes (`addSmallPrimes`, `addCtxtPrimes`,
    `addSpecialPrimes`) over an `FHEcontext` model.

Machine `long` arithmetic is modelled with `Nat` (all quantities in the
source stay far below `2^62`, so no overflow occurs and the embedding is
exact).  `double` log-sizes are modelled with `Rat`; the actual logarithm
function is an abstract parameter, since only its additive bookkeeping
matters to the claims.  Fallible operations (assertions, `Error(...)`
calls) return `Option`/`Except` values.
-/

/-- Ceiling division `divc(a, b) = (a + b - 1) / b` from NumbTh.h
(all call sites have `a, b > 0`). -/
def divc (a b : ℕ) : ℕ := (a + b - 1) / b

/-- State of `PrimeGenerator` (primeChain.cpp lines 268-335):
fields `len, m, k, t`. -/
structure PrimeGenerator where
  len : ℕ
  m : ℕ
  k : ℕ
  t : ℕ
deriving Repr, DecidableEq

/-- Lower bound for `k`: 0 when `m` is even, 1 when `m` is odd
(primeChain.cpp lines 308-312). -/
def klbOf (m : ℕ) : ℕ := if m % 2 = 0 then 0 else 1

/-- Constructor loop computing the smallest `k ≥ 0` with
`2^(len-2) < m * 2^k` (primeChain.cpp lines 279-280), written with
explicit fuel; fuel `len` always suffices since `m ≥ 1`. -/
def initKGo (len m : ℕ) : ℕ → ℕ → ℕ
  | 0, k => k
  | fuel+1, k => if m * 2^k ≤ 2^(len-2) then initKGo len m fuel (k+1) else k

/-- The `k` value set by the `PrimeGenerator` constructor. -/
def initK (len m : ℕ) : ℕ := initKGo len m len 0

/-- `PrimeGenerator` constructor (primeChain.cpp lines 272-285).
Returns `none` exactly when the argument check
`len > NTL_SP_NBITS || len < 2 || m >= NTL_SP_BOUND || m <= 0` raises an
error; `NTL_SP_BOUND = 2^NTL_SP_NBITS` is passed in via `spNbits`. -/
def mkPrimeGenerator (spNbits len m : ℕ) : Option PrimeGenerator :=
  if spNbits < len ∨ len < 2 ∨ 2^spNbits ≤ m ∨ m = 0 then none
  else some ⟨len, m, initK len m, 8⟩

/-- `tub = divc((1 << len) - 1, m << k)` (primeChain.cpp lines 297, 319). -/
def tubOf (len m k : ℕ) : ℕ := divc (2^len - 1) (m * 2^k)

/-- `tlb = divc(3*(1 << (len-2)) - 1, m << k)` (primeChain.cpp line 318). -/
def tlbOf (len m k : ℕ) : ℕ := divc (3 * 2^(len-2) - 1) (m * 2^k)

/-- Failure modes of the generator model: `exhausted` is the
`Error("PrimeGenerator: ran out of primes")` call, `assertFail` is the
range assertion on line 327, `fuelOut` means the bounded model ran out
of fuel before the probabilistic search returned. -/
inductive PGError where
  | fuelOut
  | exhausted
  | assertFail
deriving Repr, DecidableEq

/-- One head-of-loop step of `next()` (primeChain.cpp lines 301-320):
increment `t`; on `t ≥ tub` decrement `k` (error when it falls below
`klb`) and reset `t` to `tlb`. -/
def stepPG (g : PrimeGenerator) : Except PGError PrimeGenerator :=
  if tubOf g.len g.m g.k ≤ g.t + 1 then
    if g.k ≤ klbOf g.m then .error .exhausted
    else .ok ⟨g.len, g.m, g.k - 1, tlbOf g.len g.m (g.k - 1)⟩
  else .ok ⟨g.len, g.m, g.k, g.t + 1⟩

/-- `PrimeGenerator::next()` (primeChain.cpp lines 287-333), with fuel
bounding the number of `for(;;)` iterations and the primality test
`ProbPrime(cand, 60)` abstracted as the parameter `pp`.  Candidates are
`cand = ((t*m) << k) + 1`; the range assertion of line 327 is modelled
by the `assertFail` branch. -/
def nextGo (pp : ℕ → Bool) : ℕ → PrimeGenerator → Except PGError (ℕ × PrimeGenerator)
  | 0, _ => .error .fuelOut
  | fuel+1, g =>
    match stepPG g with
    | .error e => .error e
    | .ok g1 =>
      if g1.t % 2 = 0 then nextGo pp fuel g1
      else
        if 3 * 2^(g1.len - 2) ≤ g1.t * g1.m * 2^g1.k + 1 ∧
           g1.t * g1.m * 2^g1.k + 1 < 2^g1.len then
          if pp (g1.t * g1.m * 2^g1.k + 1) then .ok (g1.t * g1.m * 2^g1.k + 1, g1)
          else nextGo pp fuel g1
        else .error .assertFail

/-- A sequence of `n` successive `next()` calls, collecting the returned
primes (each call gets `fuel` loop iterations). -/
def genPrimes (pp : ℕ → Bool) (fuel : ℕ) : ℕ → PrimeGenerator → Except PGError (List ℕ × PrimeGenerator)
  | 0, g => .ok ([], g)
  | n+1, g =>
    match nextGo pp fuel g with
    | .error e => .error e
    | .ok (p, g1) =>
      match genPrimes pp fuel n g1 with
      | .error e => .error e
      | .ok (l, g2) => .ok (p :: l, g2)

/-- Invariant of reachable generator states: valid `len`/`m`, `k` never
above the constructor's value, `t` at least `tlb(k) - 1`, and whenever
`k` is below `klb` the next step is forced to be a reset. -/
def PGInv (g : PrimeGenerator) : Prop :=
  1 ≤ g.m ∧ 2 ≤ g.len ∧ g.k ≤ initK g.len g.m ∧
  tlbOf g.len g.m g.k ≤ g.t + 1 ∧
  (klbOf g.m ≤ g.k ∨ tubOf g.len g.m g.k ≤ g.t + 1)

lemma divc_le {a b c : ℕ} (hb : 0 < b) : divc a b ≤ c ↔ a ≤ b * c := by
  unfold divc
  rw [Nat.div_le_iff_le_mul_add_pred hb]
  omega

lemma le_mul_divc {a b : ℕ} (hb : 0 < b) : a ≤ b * divc a b :=
  (divc_le hb).mp le_rfl

lemma mul_divc_pred_lt {a b : ℕ} (hb : 0 < b) (ha : 0 < a) :
    b * (divc a b - 1) < a := by
  by_contra hcon
  push_neg at hcon
  have h1 : divc a b ≤ divc a b - 1 := (divc_le hb).mpr hcon
  have h0 : ¬ (divc a b ≤ 0) := by
    intro h
    have := (divc_le hb).mp h
    omega
  omega

lemma initKGo_spec {len m : ℕ} (hm : 1 ≤ m) :
    ∀ fuel k, (∀ j < k, m * 2^j ≤ 2^(len-2)) →
      2^(len-2) < m * 2^(k+fuel) →
      2^(len-2) < m * 2^(initKGo len m fuel k) ∧
      ∀ j < initKGo len m fuel k, m * 2^j ≤ 2^(len-2) := by
  intro fuel
  induction fuel with
  | zero =>
    intro k hinv hsuf
    simpa [initKGo] using ⟨hsuf, hinv⟩
  | succ fuel ih =>
    intro k hinv hsuf
    unfold initKGo
    by_cases hc : m * 2^k ≤ 2^(len-2)
    · simp only [hc, if_pos]
      apply ih (k+1)
      · intro j hj
        rcases Nat.lt_succ_iff_lt_or_eq.mp hj with h | h
        · exact hinv j h
        · simpa [h] using hc
      · have : k + 1 + fuel = k + (fuel + 1) := by omega
        rw [this]; exact hsuf
    · simp only [hc, if_neg, if_false]
      exact ⟨by omega, hinv⟩

lemma initK_spec {len m : ℕ} (hm : 1 ≤ m) (hlen : 2 ≤ len) :
    2^(len-2) < m * 2^(initK len m) ∧
    ∀ j < initK len m, m * 2^j ≤ 2^(len-2) := by
  apply initKGo_spec hm len 0
  · intro j hj; omega
  · have h1 : 2^(len-2) < 2^len := Nat.pow_lt_pow_right one_lt_two (by omega)
    calc 2^(len-2) < 2^len := h1
    _ = 1 * 2^(0+len) := by ring
    _ ≤ m * 2^(0+len) := by
        exact Nat.mul_le_mul_right _ hm

lemma pow_len_eq {len : ℕ} (h : 2 ≤ len) : 2^len = 4 * 2^(len-2) := by
  have hl : len - 2 + 2 = len := by omega
  calc 2^len = 2^(len-2+2) := by rw [hl]
  _ = 4 * 2^(len-2) := by ring

lemma mkPrimeGenerator_inv {spNbits len m : ℕ} {g : PrimeGenerator}
    (h : mkPrimeGenerator spNbits len m = some g) :
    PGInv g ∧ g.len = len ∧ g.m = m ∧ g.k = initK len m ∧ g.t = 8 := by
  unfold mkPrimeGenerator at h
  by_cases hc : spNbits < len ∨ len < 2 ∨ 2^spNbits ≤ m ∨ m = 0
  · simp [hc] at h
  · simp only [hc, if_neg, if_false, Option.some.injEq] at h
    push_neg at hc
    obtain ⟨h1, h2, h3, h4⟩ := hc
    subst h
    have hm : 1 ≤ m := by omega
    have hlen : 2 ≤ len := by omega
    obtain ⟨hik1, _⟩ := initK_spec hm hlen
    have hB : 2^(len-2) + 1 ≤ m * 2^(initK len m) := hik1
    have hBpos : 0 < m * 2^(initK len m) := by positivity
    refine ⟨⟨hm, hlen, le_rfl, ?_, Or.inr ?_⟩, rfl, rfl, rfl, rfl⟩
    · show tlbOf len m (initK len m) ≤ 8 + 1
      rw [tlbOf, divc_le hBpos]
      omega
    · show tubOf len m (initK len m) ≤ 8 + 1
      rw [tubOf, divc_le hBpos, pow_len_eq hlen]
      omega

lemma stepPG_err {g : PrimeGenerator} {e : PGError} (h : stepPG g = .error e) :
    e = .exhausted := by
  unfold stepPG at h
  by_cases h1 : tubOf g.len g.m g.k ≤ g.t + 1
  · simp only [h1, if_pos] at h
    by_cases h2 : g.k ≤ klbOf g.m
    · simp only [h2, if_pos, Except.error.injEq] at h
      exact h.symm
    · simp [h2] at h
  · simp [h1] at h

lemma tlb_lt_tub {len m k : ℕ} (hm : 1 ≤ m) (hlen : 2 ≤ len)
    (hB : m * 2^k ≤ 2^(len-2)) : tlbOf len m k < tubOf len m k := by
  have hBpos : 0 < m * 2^k := by positivity
  have hx : 1 ≤ 2^(len-2) := Nat.one_le_two_pow
  by_contra hcon
  push_neg at hcon
  have h1 : 2^len - 1 ≤ m * 2^k * tlbOf len m k := by
    calc 2^len - 1 ≤ m * 2^k * tubOf len m k := le_mul_divc hBpos
    _ ≤ m * 2^k * tlbOf len m k := Nat.mul_le_mul_left _ hcon
  have h2 : m * 2^k * (tlbOf len m k - 1) < 3 * 2^(len-2) - 1 :=
    mul_divc_pred_lt hBpos (by omega)
  have h3 : m * 2^k * tlbOf len m k ≤ m * 2^k * (tlbOf len m k - 1) + m * 2^k := by
    have := Nat.mul_le_mul_left (m * 2^k) (show tlbOf len m k ≤ (tlbOf len m k - 1) + 1 by omega)
    simpa [Nat.mul_add] using this
  rw [pow_len_eq hlen] at h1
  omega

lemma stepPG_ok {g g1 : PrimeGenerator} (hInv : PGInv g) (h : stepPG g = .ok g1) :
    g1.len = g.len ∧ g1.m = g.m ∧
    klbOf g.m ≤ g1.k ∧ g1.k ≤ initK g.len g.m ∧
    tlbOf g.len g.m g1.k ≤ g1.t ∧ g1.t < tubOf g.len g.m g1.k ∧
    (g1.k < g.k ∨ (g1.k = g.k ∧ g1.t = g.t + 1)) := by
  obtain ⟨hm, hlen, hk, hC, hD⟩ := hInv
  unfold stepPG at h
  by_cases h1 : tubOf g.len g.m g.k ≤ g.t + 1
  · simp only [h1, if_pos] at h
    by_cases h2 : g.k ≤ klbOf g.m
    · simp [h2] at h
    · simp only [h2, if_neg, if_false, Except.ok.injEq] at h
      subst h
      push_neg at h2
      have hkpos : 1 ≤ g.k := by
        have : 0 ≤ klbOf g.m := Nat.zero_le _
        omega
      have hk1 : g.k - 1 < initK g.len g.m := by omega
      have hB : g.m * 2^(g.k - 1) ≤ 2^(g.len - 2) :=
        (initK_spec hm hlen).2 _ hk1
      refine ⟨rfl, rfl, ?_, ?_, ?_, ?_, Or.inl ?_⟩
      · show klbOf g.m ≤ g.k - 1
        omega
      · show g.k - 1 ≤ initK g.len g.m
        omega
      · exact le_rfl
      · exact tlb_lt_tub hm hlen hB
      · show g.k - 1 < g.k
        omega
  · simp only [h1, if_neg, if_false, Except.ok.injEq] at h
    subst h
    have hklb : klbOf g.m ≤ g.k := by
      rcases hD with h | h
      · exact h
      · omega
    refine ⟨rfl, rfl, hklb, hk, ?_, ?_, Or.inr ⟨rfl, rfl⟩⟩
    · show tlbOf g.len g.m g.k ≤ g.t + 1
      exact hC
    · show g.t + 1 < tubOf g.len g.m g.k
      omega

lemma cand_range {len m k t : ℕ} (hm : 1 ≤ m) (hlen : 2 ≤ len)
    (hlb : tlbOf len m k ≤ t) (hub : t < tubOf len m k) :
    3 * 2^(len-2) ≤ t * m * 2^k + 1 ∧ t * m * 2^k + 1 < 2^len := by
  have hBpos : 0 < m * 2^k := by positivity
  have hx : 1 ≤ 2^(len-2) := Nat.one_le_two_pow
  have htB : t * m * 2^k = m * 2^k * t := by ring
  constructor
  · have h1 : 3 * 2^(len-2) - 1 ≤ m * 2^k * tlbOf len m k := le_mul_divc hBpos
    have h2 : m * 2^k * tlbOf len m k ≤ m * 2^k * t := Nat.mul_le_mul_left _ hlb
    omega
  · have h1 : m * 2^k * (tubOf len m k - 1) < 2^len - 1 :=
      mul_divc_pred_lt hBpos (by rw [pow_len_eq hlen]; omega)
    have h2 : m * 2^k * t ≤ m * 2^k * (tubOf len m k - 1) :=
      Nat.mul_le_mul_left _ (by omega)
    have h4 : 1 ≤ 2^len := Nat.one_le_two_pow
    omega

lemma stepPG_inv {g gm : PrimeGenerator} (hInv : PGInv g) (hs : stepPG g = .ok gm) :
    PGInv gm := by
  obtain ⟨hle, hme, hklb, hik, hlb, hub, _⟩ := stepPG_ok hInv hs
  refine ⟨by rw [hme]; exact hInv.1, by rw [hle]; exact hInv.2.1, ?_, ?_, Or.inl ?_⟩
  · rw [hle, hme]; exact hik
  · rw [hle, hme]; omega
  · rw [hme]; exact hklb

lemma nextGo_spec (pp : ℕ → Bool) : ∀ (fuel : ℕ) (g : PrimeGenerator), PGInv g →
    nextGo pp fuel g ≠ .error .assertFail ∧
    (∀ p g1, nextGo pp fuel g = .ok (p, g1) →
      g1.len = g.len ∧ g1.m = g.m ∧ PGInv g1 ∧
      p = g1.t * g1.m * 2^g1.k + 1 ∧ g1.t % 2 = 1 ∧
      klbOf g.m ≤ g1.k ∧ g1.k ≤ initK g.len g.m ∧
      3 * 2^(g.len-2) ≤ p ∧ p < 2^g.len ∧ pp p = true ∧
      (g1.k < g.k ∨ (g1.k = g.k ∧ g.t < g1.t))) := by
  intro fuel
  induction fuel with
  | zero =>
    intro g _
    constructor
    · simp [nextGo]
    · intro p g1 h
      simp [nextGo] at h
  | succ fuel ih =>
    intro g hInv
    have hm := hInv.1
    have hlen := hInv.2.1
    constructor
    · intro hcon
      simp only [nextGo] at hcon
      cases hs : stepPG g with
      | error e =>
        have he := stepPG_err hs
        subst he
        simp only [hs] at hcon
        exact PGError.noConfusion (Except.error.inj hcon)
      | ok gm =>
        simp only [hs] at hcon
        obtain ⟨hle, hme, hklb, hik, hlb, hub, hrel⟩ := stepPG_ok hInv hs
        have hInvm : PGInv gm := stepPG_inv hInv hs
        by_cases hev : gm.t % 2 = 0
        · rw [if_pos hev] at hcon
          exact (ih gm hInvm).1 hcon
        · rw [if_neg hev] at hcon
          have hrange := cand_range hm hlen hlb hub
          rw [← hle, ← hme] at hrange
          rw [if_pos hrange] at hcon
          by_cases hpp : pp (gm.t * gm.m * 2^gm.k + 1)
          · rw [if_pos hpp] at hcon
            exact Except.noConfusion hcon
          · rw [if_neg hpp] at hcon
            exact (ih gm hInvm).1 hcon
    · intro p g1 h
      simp only [nextGo] at h
      cases hs : stepPG g with
      | error e =>
        simp only [hs] at h
        exact Except.noConfusion h
      | ok gm =>
        simp only [hs] at h
        obtain ⟨hle, hme, hklb, hik, hlb, hub, hrel⟩ := stepPG_ok hInv hs
        have hInvm : PGInv gm := stepPG_inv hInv hs
        have hstep : ∀ p' g1', nextGo pp fuel gm = .ok (p', g1') →
            g1'.len = g.len ∧ g1'.m = g.m ∧ PGInv g1' ∧
            p' = g1'.t * g1'.m * 2^g1'.k + 1 ∧ g1'.t % 2 = 1 ∧
            klbOf g.m ≤ g1'.k ∧ g1'.k ≤ initK g.len g.m ∧
            3 * 2^(g.len-2) ≤ p' ∧ p' < 2^g.len ∧ pp p' = true ∧
            (g1'.k < g.k ∨ (g1'.k = g.k ∧ g.t < g1'.t)) := by
          intro p' g1' h'
          obtain ⟨a1, a2, a3, a4, a5, a6, a7, a8, a9, a10, a11⟩ := (ih gm hInvm).2 p' g1' h'
          refine ⟨a1.trans hle, a2.trans hme, a3, a4, a5, ?_, ?_, ?_, ?_, a10, ?_⟩
          · rw [hme] at a6; exact a6
          · rw [hle, hme] at a7; exact a7
          · rw [hle] at a8; exact a8
          · rw [hle] at a9; exact a9
          · rcases a11 with h'' | ⟨hke, hte⟩
            · left; omega
            · rcases hrel with h'' | ⟨h2, h3⟩
              · left; omega
              · right; omega
        by_cases hev : gm.t % 2 = 0
        · rw [if_pos hev] at h
          exact hstep p g1 h
        · rw [if_neg hev] at h
          have hrange := cand_range hm hlen hlb hub
          rw [← hle, ← hme] at hrange
          rw [if_pos hrange] at h
          by_cases hpp : pp (gm.t * gm.m * 2^gm.k + 1)
          · rw [if_pos hpp] at h
            injection h with h'
            injection h' with hp hg
            subst hg
            refine ⟨hle, hme, hInvm, hp.symm, by omega, hklb, hik, ?_, ?_, ?_, ?_⟩
            · rw [hp] at hrange; rw [← hle]; exact hrange.1
            · rw [hp] at hrange; rw [← hle]; exact hrange.2
            · rw [← hp]; exact hpp
            · rcases hrel with h' | ⟨h2, h3⟩
              · left; exact h'
              · right; omega
          · rw [if_neg hpp] at h
            exact hstep p g1 h

lemma candNe {m k1 t1 k2 t2 : ℕ} (hm : 1 ≤ m) (h1 : t1 % 2 = 1) (h2 : t2 % 2 = 1)
    (hrel : k2 < k1 ∨ (k2 = k1 ∧ t1 < t2)) :
    t1 * m * 2^k1 + 1 ≠ t2 * m * 2^k2 + 1 := by
  intro heq
  have heq2 : t1 * 2^k1 * m = t2 * 2^k2 * m := by
    have : t1 * m * 2^k1 = t2 * m * 2^k2 := by omega
    calc t1 * 2^k1 * m = t1 * m * 2^k1 := by ring
    _ = t2 * m * 2^k2 := this
    _ = t2 * 2^k2 * m := by ring
  have heq3 : t1 * 2^k1 = t2 * 2^k2 := Nat.eq_of_mul_eq_mul_right (by omega) heq2
  rcases hrel with hk | ⟨hk, ht⟩
  · have hsplit : 2^k1 = 2^(k1-k2) * 2^k2 := by
      rw [← pow_add]
      congr 1
      omega
    rw [hsplit, ← Nat.mul_assoc] at heq3
    have ht2 : t2 = t1 * 2^(k1-k2) := (Nat.eq_of_mul_eq_mul_right (by positivity) heq3).symm
    have hdvd : 2 ∣ t2 := by
      rw [ht2]
      exact Dvd.dvd.mul_left (dvd_pow_self 2 (by omega)) t1
    omega
  · subst hk
    have := Nat.eq_of_mul_eq_mul_right (show 0 < 2^k2 by positivity) heq3
    omega

lemma genPrimes_spec (pp : ℕ → Bool) : ∀ (n fuel : ℕ) (g : PrimeGenerator), PGInv g →
    ∀ l gf, genPrimes pp fuel n g = .ok (l, gf) →
      gf.len = g.len ∧ gf.m = g.m ∧ PGInv gf ∧
      (∀ p ∈ l, ∃ k t, klbOf g.m ≤ k ∧ k ≤ initK g.len g.m ∧ t % 2 = 1 ∧
        p = t * g.m * 2^k + 1 ∧ 3 * 2^(g.len-2) ≤ p ∧ p < 2^g.len ∧ pp p = true ∧
        (k < g.k ∨ (k = g.k ∧ g.t < t))) ∧
      l.Pairwise (· ≠ ·) := by
  intro n
  induction n with
  | zero =>
    intro fuel g hInv l gf h
    simp only [genPrimes, Except.ok.injEq, Prod.mk.injEq] at h
    obtain ⟨hl, hgf⟩ := h
    subst hl; subst hgf
    exact ⟨rfl, rfl, hInv, by simp, by simp⟩
  | succ n ih =>
    intro fuel g hInv l gf h
    simp only [genPrimes] at h
    cases hs : nextGo pp fuel g with
    | error e =>
      simp only [hs] at h
      exact Except.noConfusion h
    | ok pr =>
      obtain ⟨p, g1⟩ := pr
      simp only [hs] at h
      obtain ⟨hle, hme, hInv1, hpform, hodd, hklb, hik, hlo, hhi, hppp, hrel⟩ :=
        (nextGo_spec pp fuel g hInv).2 p g1 hs
      cases h2 : genPrimes pp fuel n g1 with
      | error e =>
        simp only [h2] at h
        exact Except.noConfusion h
      | ok pr2 =>
        obtain ⟨l', g2⟩ := pr2
        simp only [h2, Except.ok.injEq, Prod.mk.injEq] at h
        obtain ⟨hl, hgf⟩ := h
        subst hl; subst hgf
        obtain ⟨b1, b2, b3, b4, b5⟩ := ih fuel g1 hInv1 l' g2 h2
        have htail : ∀ q ∈ l', ∃ k t, klbOf g.m ≤ k ∧ k ≤ initK g.len g.m ∧ t % 2 = 1 ∧
            q = t * g.m * 2^k + 1 ∧ 3 * 2^(g.len-2) ≤ q ∧ q < 2^g.len ∧ pp q = true ∧
            (k < g1.k ∨ (k = g1.k ∧ g1.t < t)) := by
          intro q hq
          obtain ⟨k, t, c1, c2, c3, c4, c5, c6, c7, c8⟩ := b4 q hq
          rw [hme] at c1
          rw [hle, hme] at c2
          rw [hme] at c4
          rw [hle] at c5 c6
          exact ⟨k, t, c1, c2, c3, c4, c5, c6, c7, c8⟩
        refine ⟨b1.trans hle, b2.trans hme, b3, ?_, ?_⟩
        · intro q hq
          rcases List.mem_cons.mp hq with hq | hq
          · subst hq
            refine ⟨g1.k, g1.t, hklb, hik, hodd, ?_, hlo, hhi, hppp, hrel⟩
            rw [hpform, hme]
          · obtain ⟨k, t, c1, c2, c3, c4, c5, c6, c7, c8⟩ := htail q hq
            refine ⟨k, t, c1, c2, c3, c4, c5, c6, c7, ?_⟩
            rcases c8 with h' | ⟨h1, h2'⟩
            · rcases hrel with h'' | ⟨h3, h4⟩
              · left; omega
              · left; omega
            · rcases hrel with h'' | ⟨h3, h4⟩
              · left; omega
              · right; omega
        · rw [List.pairwise_cons]
          refine ⟨?_, b5⟩
          intro q hq
          obtain ⟨k, t, c1, c2, c3, c4, c5, c6, c7, c8⟩ := htail q hq
          rw [hpform, hme, c4]
          have hm : 1 ≤ g.m := hInv.1
          exact candNe hm hodd c3 c8

lemma genPrimes_ne_assertFail (pp : ℕ → Bool) : ∀ (n fuel : ℕ) (g : PrimeGenerator),
    PGInv g → genPrimes pp fuel n g ≠ .error .assertFail := by
  intro n
  induction n with
  | zero =>
    intro fuel g _ h
    simp [genPrimes] at h
  | succ n ih =>
    intro fuel g hInv h
    simp only [genPrimes] at h
    cases hs : nextGo pp fuel g with
    | error e =>
      simp only [hs] at h
      have := (nextGo_spec pp fuel g hInv).1
      rw [hs] at this
      simp only [Except.error.injEq] at h
      subst h
      exact this rfl
    | ok pr =>
      obtain ⟨p, g1⟩ := pr
      simp only [hs] at h
      obtain ⟨_, _, hInv1, _⟩ := (nextGo_spec pp fuel g hInv).2 p g1 hs
      cases h2 : genPrimes pp fuel n g1 with
      | error e =>
        simp only [h2] at h
        simp only [Except.error.injEq] at h
        subst h
        exact ih fuel g1 hInv1 h2
      | ok pr2 =>
        simp only [h2] at h
        exact Except.noConfusion h

lemma k_max_dvd {m k t j : ℕ} (hm : 1 ≤ m) (ht : t % 2 = 1)
    (hdvd : 2^j * m ∣ t * m * 2^k) : j ≤ k := by
  by_contra hcon
  push_neg at hcon
  have h1 : m * 2^j ∣ m * (t * 2^k) := by
    have e1 : m * 2^j = 2^j * m := by ring
    have e2 : m * (t * 2^k) = t * m * 2^k := by ring
    rw [e1, e2]
    exact hdvd
  have h2 : 2^j ∣ t * 2^k := (Nat.mul_dvd_mul_iff_left (by omega)).mp h1
  have h3 : 2^(j-k) * 2^k ∣ t * 2^k := by
    rw [← pow_add]
    have : j - k + k = j := by omega
    rw [this]
    exact h2
  have h4 : 2^(j-k) ∣ t := (Nat.mul_dvd_mul_iff_right (show 0 < 2^k by positivity)).mp h3
  have h5 : 2 ∣ t := dvd_trans (dvd_pow_self 2 (by omega)) h4
  omega

/-- C1.  Every prime returned by `next()` on a validly constructed
`PrimeGenerator(len, m)` is prime (assuming a sound primality oracle),
lies in `[3*2^(len-2), 2^len) = [(3/4)*2^len, 2^len)`, is `≡ 1 (mod m)`,
and decomposes as `p = 2^k*t*m + 1` with `t` odd and `k` maximal among
exponents with `2^k*m ∣ p-1`, within the range `[klb, initial k]`. -/
theorem claim_C1_primeGen_next_contract
    (spNbits len m : ℕ) (pp : ℕ → Bool)
    (hpp : ∀ q, pp q = true → Nat.Prime q)
    (g0 : PrimeGenerator) (hmk : mkPrimeGenerator spNbits len m = some g0)
    (n fuel : ℕ) (l : List ℕ) (gf : PrimeGenerator)
    (hrun : genPrimes pp fuel n g0 = .ok (l, gf)) :
    ∀ p ∈ l, Nat.Prime p ∧
      3 * 2^(len-2) ≤ p ∧ p < 2^len ∧ (p - 1) % m = 0 ∧
      ∃ k t, p = 2^k * t * m + 1 ∧ t % 2 = 1 ∧
        klbOf m ≤ k ∧ k ≤ initK len m ∧
        ∀ j, 2^j * m ∣ (p - 1) → j ≤ k := by
  obtain ⟨hInv, hglen, hgm, _, _⟩ := mkPrimeGenerator_inv hmk
  obtain ⟨_, _, _, helts, _⟩ := genPrimes_spec pp n fuel g0 hInv l gf hrun
  intro p hp
  obtain ⟨k, t, c1, c2, c3, c4, c5, c6, c7, _⟩ := helts p hp
  rw [hgm] at c1 c4
  rw [hglen, hgm] at c2
  rw [hglen] at c5 c6
  have hm : 1 ≤ m := by
    have := hInv.1
    rw [hgm] at this
    exact this
  have hp1 : p - 1 = t * m * 2^k := by omega
  refine ⟨hpp p c7, c5, c6, ?_, k, t, by rw [c4]; ring, c3, c1, c2, ?_⟩
  · rw [hp1]
    have he : t * m * 2^k = m * (t * 2^k) := by ring
    rw [he]
    exact Nat.mul_mod_right m (t * 2^k)
  · intro j hj
    rw [hp1] at hj
    exact k_max_dvd hm c3 hj

/-- C7.  For a fixed validly constructed generator, successive `next()`
calls return pairwise distinct primes: t-values grow within each k,
k-values strictly decrease across resets, so no value is emitted twice. -/
theorem claim_C7_primeGen_distinct
    (spNbits len m : ℕ) (pp : ℕ → Bool)
    (g0 : PrimeGenerator) (hmk : mkPrimeGenerator spNbits len m = some g0)
    (n fuel : ℕ) (l : List ℕ) (gf : PrimeGenerator)
    (hrun : genPrimes pp fuel n g0 = .ok (l, gf)) :
    l.Pairwise (· ≠ ·) := by
  obtain ⟨hInv, _, _, _, _⟩ := mkPrimeGenerator_inv hmk
  exact (genPrimes_spec pp n fuel g0 hInv l gf hrun).2.2.2.2

/-- C10.  On a validly constructed generator every candidate
`cand = 2^k*t*m + 1` computed inside `next()` lies in
`[3*2^(len-2), 2^len)`, so the internal range assertion can never fail:
no run of the generator ever produces the `assertFail` outcome. -/
theorem claim_C10_candidate_range_assert
    (spNbits len m : ℕ) (pp : ℕ → Bool) (g0 : PrimeGenerator)
    (hmk : mkPrimeGenerator spNbits len m = some g0) (n fuel : ℕ) :
    genPrimes pp fuel n g0 ≠ .error .assertFail := by
  obtain ⟨hInv, _, _, _, _⟩ := mkPrimeGenerator_inv hmk
  exact genPrimes_ne_assertFail pp n fuel g0 hInv

/-- Primality oracle used by the concrete witnesses: accepts exactly 29
and 31 (both prime). -/
def ppW (q : ℕ) : Bool := q == 29 || q == 31

lemma ppW_sound : ∀ q, ppW q = true → Nat.Prime q := by
  intro q h
  simp [ppW] at h
  rcases h with h | h <;> subst h <;> norm_num

/-- Witness for C1: `PrimeGenerator(5, 1)` emits 29 then 31, and both
satisfy the contract. -/
theorem claim_C1_witness :
    (∀ q, ppW q = true → Nat.Prime q) ∧
    mkPrimeGenerator 60 5 1 = some ⟨5, 1, 4, 8⟩ ∧
    genPrimes ppW 50 2 ⟨5, 1, 4, 8⟩ = .ok ([29, 31], ⟨5, 1, 1, 15⟩) ∧
    ∀ p ∈ [29, 31], Nat.Prime p ∧
      3 * 2^(5-2) ≤ p ∧ p < 2^5 ∧ (p - 1) % 1 = 0 ∧
      ∃ k t, p = 2^k * t * 1 + 1 ∧ t % 2 = 1 ∧
        klbOf 1 ≤ k ∧ k ≤ initK 5 1 ∧
        ∀ j, 2^j * 1 ∣ (p - 1) → j ≤ k :=
  ⟨ppW_sound, rfl, rfl,
    claim_C1_primeGen_next_contract 60 5 1 ppW ppW_sound ⟨5, 1, 4, 8⟩ rfl
      2 50 [29, 31] ⟨5, 1, 1, 15⟩ rfl⟩

/-- Witness for C7: the two primes emitted by `PrimeGenerator(5, 1)` are
distinct. -/
theorem claim_C7_witness :
    genPrimes ppW 50 2 ⟨5, 1, 4, 8⟩ = .ok ([29, 31], ⟨5, 1, 1, 15⟩) ∧
    List.Pairwise (· ≠ ·) [29, 31] :=
  ⟨rfl, claim_C7_primeGen_distinct 60 5 1 ppW ⟨5, 1, 4, 8⟩ rfl
    2 50 [29, 31] ⟨5, 1, 1, 15⟩ rfl⟩

/-- Witness for C10: a run of `PrimeGenerator(5, 1)` that exhausts the
prime supply fails with `exhausted`, never with `assertFail`. -/
theorem claim_C10_witness :
    genPrimes ppW 50 3 ⟨5, 1, 4, 8⟩ = .error .exhausted ∧
    genPrimes ppW 50 3 ⟨5, 1, 4, 8⟩ ≠ .error .assertFail :=
  ⟨rfl, claim_C10_candidate_range_assert 60 5 1 ppW ⟨5, 1, 4, 8⟩ rfl 3 50⟩

/-- A `ModuliSizes` entry: `pair<double, IndexSet>` modelled as a
log-size in `ℚ` together with a finite set of prime indices. -/
abbrev MSEntry : Type := ℚ × Finset ℕ

/-- The doubling loop over `smallPrimes` in `ModuliSizes::init`
(primeChain.cpp lines 63-74): for each small prime, append a copy of
every existing entry with the prime's log-size and index added. -/
def smallFold (lg : ℕ → ℚ) (acc : List MSEntry) : List ℕ → List MSEntry
  | [] => acc
  | i :: rest =>
    smallFold lg (acc ++ acc.map (fun e => (e.1 + lg i, insert i e.2))) rest

/-- The interval loop over `ctxtPrimes` in `ModuliSizes::init`
(primeChain.cpp lines 79-90): for each successive ctxt prime, grow the
running interval `s` (with running log-size `sz`) and append a copy of
the base block with the interval union-inserted. -/
def ctxtFold (lg : ℕ → ℚ) (base : List MSEntry) :
    List ℕ → Finset ℕ → ℚ → List MSEntry
  | [], _, _ => []
  | i :: rest, s, sz =>
    base.map (fun e => (e.1 + (sz + lg i), e.2 ∪ insert i s)) ++
      ctxtFold lg base rest (insert i s) (sz + lg i)

/-- The entry list built by `ModuliSizes::init` before the final sort. -/
def initEntries (lg : ℕ → ℚ) (small ctxt : List ℕ) : List MSEntry :=
  smallFold lg [(0, ∅)] small ++
    ctxtFold lg (smallFold lg [(0, ∅)] small) ctxt ∅ 0

/-- `ModuliSizes::init` (primeChain.cpp lines 54-94): enumerate all
(subset of smallPrimes) × (prefix interval of ctxtPrimes) combinations
and sort ascending by log-size.  `lg i` stands for `log(chain[i].getQ())`;
`small` and `ctxt` are the two index sets in ascending order. -/
def msInit (lg : ℕ → ℚ) (small ctxt : List ℕ) : List MSEntry :=
  (initEntries lg small ctxt).mergeSort (fun a b => decide (a.1 ≤ b.1))

lemma smallFold_length (lg : ℕ → ℚ) :
    ∀ (l : List ℕ) (acc : List MSEntry),
      (smallFold lg acc l).length = acc.length * 2^l.length := by
  intro l
  induction l with
  | nil => intro acc; simp [smallFold]
  | cons i rest ih =>
    intro acc
    rw [smallFold, ih]
    simp only [List.length_append, List.length_map, List.length_cons]
    rw [pow_succ]
    ring

lemma ctxtFold_length (lg : ℕ → ℚ) (base : List MSEntry) :
    ∀ (l : List ℕ) (s : Finset ℕ) (sz : ℚ),
      (ctxtFold lg base l s sz).length = base.length * l.length := by
  intro l
  induction l with
  | nil => intro s sz; simp [ctxtFold]
  | cons i rest ih =>
    intro s sz
    rw [ctxtFold]
    simp only [List.length_append, List.length_map, List.length_cons, ih]
    ring

lemma smallFold_eq (lg : ℕ → ℚ) :
    ∀ (l : List ℕ) (acc : List MSEntry),
      smallFold lg acc l = l.sublists.flatMap
        (fun S => acc.map (fun e => (e.1 + (S.map lg).sum, e.2 ∪ S.toFinset))) := by
  intro l
  induction l with
  | nil =>
    intro acc
    have hid : (fun e : MSEntry =>
        (e.1 + ((List.map lg []).sum), e.2 ∪ ([] : List ℕ).toFinset)) = id := by
      funext e
      simp
    simp [smallFold, hid]
  | cons i rest ih =>
    intro acc
    rw [smallFold, ih]
    rw [List.sublists_cons]
    show _ = (rest.sublists.flatMap fun x => [x, i :: x]).flatMap _
    rw [List.flatMap_assoc]
    apply List.flatMap_congr
    intro S _
    simp only [List.flatMap_cons, List.flatMap_nil, List.append_nil, List.map_append,
      List.map_map]
    congr 1
    apply List.map_congr_left
    intro e _
    simp only [Function.comp_apply, List.map_cons, List.sum_cons, List.toFinset_cons,
      Finset.insert_union, Finset.union_insert]
    rw [Prod.mk.injEq]
    exact ⟨by ring, rfl⟩

lemma flatMap_one {α β : Type} (l : List α) (f : α → β) :
    l.flatMap (fun x => [f x]) = l.map f := by
  induction l with
  | nil => simp
  | cons a l ih => simp [List.flatMap_cons, ih]

lemma baseSets_eq (lg : ℕ → ℚ) (small : List ℕ) :
    (smallFold lg [(0, ∅)] small).map Prod.snd =
      small.sublists.map (fun S : List ℕ => S.toFinset) := by
  rw [smallFold_eq]
  rw [List.map_flatMap]
  have h : ∀ S : List ℕ,
      (List.map Prod.snd (List.map
        (fun e : MSEntry => (e.1 + (S.map lg).sum, e.2 ∪ S.toFinset)) [(0, ∅)])) =
      [S.toFinset] := by
    intro S
    simp
  calc small.sublists.flatMap (fun S => List.map Prod.snd (List.map
          (fun e : MSEntry => (e.1 + (S.map lg).sum, e.2 ∪ S.toFinset)) [(0, ∅)]))
      = small.sublists.flatMap (fun S : List ℕ => [S.toFinset]) := by
        apply List.flatMap_congr
        intro S _
        exact h S
    _ = small.sublists.map (fun S : List ℕ => S.toFinset) := flatMap_one _ _

lemma sublist_toFinset_inj {l : List ℕ} (hl : l.Nodup) :
    ∀ {S1 S2 : List ℕ}, S1.Sublist l → S2.Sublist l →
      S1.toFinset = S2.toFinset → S1 = S2 := by
  induction l with
  | nil =>
    intro S1 S2 h1 h2 _
    rw [List.sublist_nil.mp h1, List.sublist_nil.mp h2]
  | cons i rest ih =>
    intro S1 S2 h1 h2 heq
    rw [List.nodup_cons] at hl
    obtain ⟨hi, hrest⟩ := hl
    rcases List.sublist_cons_iff.mp h1 with h1' | ⟨r1, hr1, hr1'⟩ <;>
      rcases List.sublist_cons_iff.mp h2 with h2' | ⟨r2, hr2, hr2'⟩
    · exact ih hrest h1' h2' heq
    · exfalso
      have : i ∈ S1.toFinset := by
        rw [heq, hr2]
        simp
      rw [List.mem_toFinset] at this
      exact hi (h1'.subset this)
    · exfalso
      have : i ∈ S2.toFinset := by
        rw [← heq, hr1]
        simp
      rw [List.mem_toFinset] at this
      exact hi (h2'.subset this)
    · subst hr1; subst hr2
      have hir1 : i ∉ r1.toFinset := by
        rw [List.mem_toFinset]
        intro hmem
        exact hi (hr1'.subset hmem)
      have hir2 : i ∉ r2.toFinset := by
        rw [List.mem_toFinset]
        intro hmem
        exact hi (hr2'.subset hmem)
      simp only [List.toFinset_cons] at heq
      have : r1.toFinset = r2.toFinset := by
        have h3 := congrArg (fun s => Finset.erase s i) heq
        simpa [Finset.erase_insert hir1, Finset.erase_insert hir2] using h3
      rw [ih hrest hr1' hr2' this]

lemma count_subsets {small : List ℕ} (hn : small.Nodup) (X : Finset ℕ) :
    (small.sublists.map (fun S : List ℕ => S.toFinset)).count X =
      if X ⊆ small.toFinset then 1 else 0 := by
  by_cases hX : X ⊆ small.toFinset
  · rw [if_pos hX]
    apply List.count_eq_one_of_mem
    · apply List.Nodup.map_on
      · intro x hx y hy hxy
        rw [List.mem_sublists] at hx hy
        exact sublist_toFinset_inj hn hx hy hxy
      · exact List.nodup_sublists.mpr hn
    · rw [List.mem_map]
      refine ⟨small.filter (fun x => decide (x ∈ X)), ?_, ?_⟩
      · rw [List.mem_sublists]
        exact List.filter_sublist small
      · rw [List.toFinset_filter]
        ext x
        simp only [Finset.mem_filter, List.mem_toFinset, decide_eq_true_eq]
        constructor
        · exact fun h => h.2
        · intro h
          exact ⟨by
            have := hX h
            rwa [List.mem_toFinset] at this, h⟩
  · rw [if_neg hX]
    rw [List.count_eq_zero]
    intro hmem
    rw [List.mem_map] at hmem
    obtain ⟨S, hS, hSX⟩ := hmem
    rw [List.mem_sublists] at hS
    apply hX
    rw [← hSX]
    intro x hx
    rw [List.mem_toFinset] at hx ⊢
    exact hS.subset hx

lemma base_entry_spec (lg : ℕ → ℚ) {small : List ℕ} (hn : small.Nodup) :
    ∀ e ∈ smallFold lg [(0, ∅)] small,
      e.1 = ∑ i ∈ e.2, lg i ∧ e.2 ⊆ small.toFinset := by
  rw [smallFold_eq]
  intro e he
  rw [List.mem_flatMap] at he
  obtain ⟨S, hS, he⟩ := he
  rw [List.mem_sublists] at hS
  simp only [List.map_cons, List.map_nil, List.mem_singleton] at he
  subst he
  constructor
  · show 0 + (S.map lg).sum = ∑ i ∈ (∅ ∪ S.toFinset), lg i
    rw [Finset.empty_union, List.sum_toFinset lg (hS.nodup hn), zero_add]
  · show ∅ ∪ S.toFinset ⊆ small.toFinset
    rw [Finset.empty_union]
    intro x hx
    rw [List.mem_toFinset] at hx ⊢
    exact hS.subset hx

lemma ctxtFold_entry_spec (lg : ℕ → ℚ) (base : List MSEntry) (F : Finset ℕ)
    (hbase : ∀ e ∈ base, e.1 = ∑ i ∈ e.2, lg i ∧ e.2 ⊆ F) :
    ∀ (l : List ℕ) (s : Finset ℕ) (sz : ℚ),
      sz = ∑ i ∈ s, lg i →
      (∀ x ∈ F, x ∉ s) → (∀ x ∈ l, x ∉ F) → (∀ x ∈ l, x ∉ s) → l.Nodup →
      ∀ e ∈ ctxtFold lg base l s sz, e.1 = ∑ i ∈ e.2, lg i := by
  intro l
  induction l with
  | nil =>
    intro s sz _ _ _ _ _ e he
    simp [ctxtFold] at he
  | cons i rest ih =>
    intro s sz hsz hFs hlF hls hnd e he
    rw [ctxtFold, List.mem_append] at he
    have hiF : i ∉ F := hlF i (by simp)
    have his : i ∉ s := hls i (by simp)
    rw [List.nodup_cons] at hnd
    rcases he with he | he
    · rw [List.mem_map] at he
      obtain ⟨b, hb, he⟩ := he
      obtain ⟨hb1, hb2⟩ := hbase b hb
      subst he
      show b.1 + (sz + lg i) = ∑ x ∈ (b.2 ∪ insert i s), lg x
      have hdisjoint : Disjoint b.2 (insert i s) := by
        rw [Finset.disjoint_left]
        intro x hx
        have hxF := hb2 hx
        simp only [Finset.mem_insert]
        push_neg
        exact ⟨fun hxi => hiF (hxi ▸ hxF), hFs x hxF⟩
      rw [Finset.sum_union hdisjoint, Finset.sum_insert his, hb1, hsz]
      ring
    · refine ih (insert i s) (sz + lg i) ?_ ?_ ?_ ?_ hnd.2 e he
      · rw [Finset.sum_insert his, hsz]
        ring
      · intro x hxF
        simp only [Finset.mem_insert]
        push_neg
        exact ⟨fun hxi => hiF (hxi ▸ hxF), hFs x hxF⟩
      · intro x hx
        exact hlF x (by simp [hx])
      · intro x hx
        simp only [Finset.mem_insert]
        push_neg
        refine ⟨fun hxi => hnd.1 (hxi ▸ hx), hls x (by simp [hx])⟩

lemma ctxtFold_sets_sup (lg : ℕ → ℚ) (base : List MSEntry) :
    ∀ (l : List ℕ) (s : Finset ℕ) (sz : ℚ) (x : ℕ), x ∈ s →
      ∀ e ∈ ctxtFold lg base l s sz, x ∈ e.2 := by
  intro l
  induction l with
  | nil =>
    intro s sz x _ e he
    simp [ctxtFold] at he
  | cons i rest ih =>
    intro s sz x hx e he
    rw [ctxtFold, List.mem_append] at he
    rcases he with he | he
    · rw [List.mem_map] at he
      obtain ⟨b, _, he⟩ := he
      subst he
      simp only [Finset.mem_union, Finset.mem_insert]
      right; right; exact hx
    · exact ih (insert i s) (sz + lg i) x (by simp [hx]) e he

lemma ctxtFold_head_mem (lg : ℕ → ℚ) (base : List MSEntry)
    (i : ℕ) (rest : List ℕ) (s : Finset ℕ) (sz : ℚ) :
    ∀ e ∈ ctxtFold lg base (i :: rest) s sz, i ∈ e.2 := by
  intro e he
  rw [ctxtFold, List.mem_append] at he
  rcases he with he | he
  · rw [List.mem_map] at he
    obtain ⟨b, _, he⟩ := he
    subst he
    simp
  · exact ctxtFold_sets_sup lg base rest (insert i s) (sz + lg i) i (by simp) e he

lemma union_right_cancel_of_disjoint {U V W T : Finset ℕ}
    (hU : U ⊆ T) (hV : V ⊆ T) (hW : ∀ x ∈ W, x ∉ T)
    (h : U ∪ W = V ∪ W) : U = V := by
  ext x
  by_cases hx : x ∈ T
  · have hxW : x ∉ W := fun hc => hW x hc hx
    constructor
    · intro hU'
      have : x ∈ V ∪ W := h ▸ (Finset.mem_union_left W hU')
      rcases Finset.mem_union.mp this with h' | h'
      · exact h'
      · exact absurd h' hxW
    · intro hV'
      have : x ∈ U ∪ W := h.symm ▸ (Finset.mem_union_left W hV')
      rcases Finset.mem_union.mp this with h' | h'
      · exact h'
      · exact absurd h' hxW
  · constructor
    · intro hU'; exact absurd (hU hU') hx
    · intro hV'; exact absurd (hV hV') hx

lemma ctxtFold_count (lg : ℕ → ℚ) (base : List MSEntry) (smallF : Finset ℕ)
    (hbs : ∀ e ∈ base, e.2 ⊆ smallF) (A : Finset ℕ) (hA : A ⊆ smallF) :
    ∀ (l : List ℕ) (s : Finset ℕ) (sz : ℚ) (j : ℕ),
      1 ≤ j → j ≤ l.length →
      (∀ x ∈ s, x ∉ smallF) → (∀ x ∈ l, x ∉ smallF) →
      (∀ x ∈ l, x ∉ s) → l.Nodup →
      ((ctxtFold lg base l s sz).map Prod.snd).count (A ∪ s ∪ (l.take j).toFinset)
        = (base.map Prod.snd).count A := by
  intro l
  induction l with
  | nil =>
    intro s sz j hj1 hj2 _ _ _ _
    simp at hj2
    omega
  | cons i rest ih =>
    intro s sz j hj1 hj2 hs hlF hls hnd
    obtain ⟨j', rfl⟩ : ∃ j', j = j' + 1 := ⟨j - 1, by omega⟩
    rw [List.nodup_cons] at hnd
    have hiF : i ∉ smallF := hlF i (by simp)
    have his : i ∉ s := hls i (by simp)
    have htake : ((i :: rest).take (j' + 1)).toFinset =
        insert i (rest.take j').toFinset := by
      simp [List.take_succ_cons]
    have hX : A ∪ s ∪ ((i :: rest).take (j' + 1)).toFinset =
        A ∪ insert i s ∪ (rest.take j').toFinset := by
      rw [htake]
      ext x
      simp only [Finset.mem_union, Finset.mem_insert]
      tauto
    rw [ctxtFold, List.map_append, List.count_append, hX]
    have hWnotF : ∀ x ∈ insert i s, x ∉ smallF := by
      intro x hx
      rcases Finset.mem_insert.mp hx with h | h
      · exact h ▸ hiF
      · exact hs x h
    by_cases hj0 : j' = 0
    · subst hj0
      simp only [List.take_zero, List.toFinset_nil, Finset.union_empty]
      have hblock : ((base.map
          (fun e : MSEntry => (e.1 + (sz + lg i), e.2 ∪ insert i s))).map Prod.snd).count
            (A ∪ insert i s) = (base.map Prod.snd).count A := by
        rw [List.map_map, List.count_eq_countP, List.count_eq_countP,
          List.countP_map, List.countP_map]
        apply List.countP_congr
        intro b hb
        simp only [Function.comp_apply, beq_iff_eq]
        constructor
        · intro h
          have := union_right_cancel_of_disjoint (hbs b hb) hA hWnotF h
          rw [this]
        · intro h
          rw [h]
      have htail : ((ctxtFold lg base rest (insert i s) (sz + lg i)).map Prod.snd).count
          (A ∪ insert i s) = 0 := by
        cases rest with
        | nil => simp [ctxtFold]
        | cons i2 rest2 =>
          rw [List.count_eq_zero]
          intro hmem
          rw [List.mem_map] at hmem
          obtain ⟨e, he, hesnd⟩ := hmem
          have hi2 : i2 ∈ e.2 :=
            ctxtFold_head_mem lg base i2 rest2 (insert i s) (sz + lg i) e he
          rw [hesnd] at hi2
          rcases Finset.mem_union.mp hi2 with h | h
          · exact hlF i2 (by simp) (hA h)
          · rcases Finset.mem_insert.mp h with h | h
            · exact hnd.1 (h ▸ List.mem_cons_self i2 rest2)
            · exact hls i2 (by simp) h
      rw [hblock, htail]
      omega
    · have hj'1 : 1 ≤ j' := by omega
      have hj'2 : j' ≤ rest.length := by
        simp only [List.length_cons] at hj2
        omega
      cases rest with
      | nil => simp at hj'2; omega
      | cons i2 rest2 =>
        have hi2X : i2 ∈ A ∪ insert i s ∪ ((i2 :: rest2).take j').toFinset := by
          apply Finset.mem_union_right
          rw [List.mem_toFinset]
          obtain ⟨j'', rfl⟩ : ∃ j'', j' = j'' + 1 := ⟨j' - 1, by omega⟩
          rw [List.take_succ_cons]
          exact List.mem_cons_self _ _
        have hblock : ((base.map
            (fun e : MSEntry => (e.1 + (sz + lg i), e.2 ∪ insert i s))).map Prod.snd).count
              (A ∪ insert i s ∪ ((i2 :: rest2).take j').toFinset) = 0 := by
          rw [List.count_eq_zero]
          intro hmem
          rw [List.map_map, List.mem_map] at hmem
          obtain ⟨b, hb, hbeq⟩ := hmem
          simp only [Function.comp_apply] at hbeq
          have : i2 ∈ b.2 ∪ insert i s := by
            rw [hbeq]
            exact hi2X
          rcases Finset.mem_union.mp this with h | h
          · exact hlF i2 (by simp) (hbs b hb h)
          · rcases Finset.mem_insert.mp h with h | h
            · exact hnd.1 (h ▸ List.mem_cons_self i2 rest2)
            · exact hls i2 (by simp) h
        have htail := ih (insert i s) (sz + lg i) j' hj'1 hj'2 hWnotF
          (fun x hx => hlF x (by simp [hx]))
          (fun x hx => by
            simp only [Finset.mem_insert]
            push_neg
            exact ⟨fun hxi => hnd.1 (hxi ▸ hx), hls x (by simp [hx])⟩)
          hnd.2
        rw [hblock, htail]
        omega

lemma msInit_sorted (lg : ℕ → ℚ) (small ctxt : List ℕ) :
    (msInit lg small ctxt).Pairwise (fun a b => a.1 ≤ b.1) := by
  have h := @List.sorted_mergeSort MSEntry
    (fun a b : MSEntry => decide (a.1 ≤ b.1))
    (by
      intro a b c hab hbc
      rw [decide_eq_true_eq] at hab hbc ⊢
      exact le_trans hab hbc)
    (by
      intro a b
      rcases le_total a.1 b.1 with h | h <;> simp [h])
    (initEntries lg small ctxt)
  exact h.imp (fun hab => by rwa [decide_eq_true_eq] at hab)

/-- C3.  After `ModuliSizes::init(chain, ctxtPrimes, smallPrimes)` the
table has exactly `2^|smallPrimes| * (|ctxtPrimes|+1)` entries, one for
each pair of a subset of the small primes and a prefix interval of the
ctxt primes (in ascending index order); it is sorted ascending by size;
and every entry's size is the sum of `log q_i` over its index set. -/
theorem claim_C3_moduliSizes_init_table
    (lg : ℕ → ℚ) (small ctxt : List ℕ)
    (hns : small.Nodup) (hnc : ctxt.Nodup)
    (hdisj : ∀ x ∈ ctxt, x ∉ small) :
    (msInit lg small ctxt).length = 2^small.length * (ctxt.length + 1) ∧
    (msInit lg small ctxt).Pairwise (fun a b => a.1 ≤ b.1) ∧
    (∀ e ∈ msInit lg small ctxt, e.1 = ∑ i ∈ e.2, lg i) ∧
    (∀ (A : Finset ℕ) (j : ℕ), A ⊆ small.toFinset → j ≤ ctxt.length →
      ((msInit lg small ctxt).map Prod.snd).count
        (A ∪ (ctxt.take j).toFinset) = 1) := by
  have hperm : (msInit lg small ctxt).Perm (initEntries lg small ctxt) :=
    List.mergeSort_perm _ _
  have hbaseS : ∀ e ∈ smallFold lg [(0, ∅)] small,
      e.1 = ∑ i ∈ e.2, lg i ∧ e.2 ⊆ small.toFinset := base_entry_spec lg hns
  have hdisjF : ∀ x ∈ ctxt, x ∉ small.toFinset := by
    intro x hx hmem
    exact hdisj x hx (List.mem_toFinset.mp hmem)
  refine ⟨?_, msInit_sorted lg small ctxt, ?_, ?_⟩
  · rw [hperm.length_eq]
    rw [initEntries, List.length_append, smallFold_length, ctxtFold_length,
      smallFold_length]
    simp only [List.length_cons, List.length_nil]
    ring
  · intro e he
    rw [hperm.mem_iff, initEntries, List.mem_append] at he
    rcases he with he | he
    · exact (hbaseS e he).1
    · exact ctxtFold_entry_spec lg _ small.toFinset hbaseS ctxt ∅ 0
        (by simp) (by simp) hdisjF (by simp) hnc e he
  · intro A j hA hj
    have hmapperm : ((msInit lg small ctxt).map Prod.snd).Perm
        ((initEntries lg small ctxt).map Prod.snd) := hperm.map _
    rw [hmapperm.count_eq]
    rw [initEntries, List.map_append, List.count_append]
    have hbsets := baseSets_eq lg small
    cases Nat.eq_zero_or_pos j with
    | inl hj0 =>
      subst hj0
      simp only [List.take_zero, List.toFinset_nil, Finset.union_empty]
      have h1 : ((smallFold lg [(0, ∅)] small).map Prod.snd).count A = 1 := by
        rw [hbsets, count_subsets hns, if_pos hA]
      have h2 : ((ctxtFold lg (smallFold lg [(0, ∅)] small) ctxt ∅ 0).map
          Prod.snd).count A = 0 := by
        cases ctxt with
        | nil => simp [ctxtFold]
        | cons i rest =>
          rw [List.count_eq_zero]
          intro hmem
          rw [List.mem_map] at hmem
          obtain ⟨e, he, hesnd⟩ := hmem
          have hiA : i ∈ e.2 := ctxtFold_head_mem lg _ i rest ∅ 0 e he
          rw [hesnd] at hiA
          exact hdisjF i (by simp) (hA hiA)
      omega
    | inr hjpos =>
      cases ctxt with
      | nil => simp at hj; omega
      | cons i rest =>
        have h1 : ((smallFold lg [(0, ∅)] small).map Prod.snd).count
            (A ∪ ((i :: rest).take j).toFinset) = 0 := by
          rw [hbsets, count_subsets hns, if_neg]
          intro hsub
          have hiX : i ∈ A ∪ ((i :: rest).take j).toFinset := by
            apply Finset.mem_union_right
            rw [List.mem_toFinset]
            obtain ⟨j', rfl⟩ : ∃ j', j = j' + 1 := ⟨j - 1, by omega⟩
            rw [List.take_succ_cons]
            exact List.mem_cons_self _ _
          exact hdisjF i (by simp) (hsub hiX)
        have h2 : ((ctxtFold lg (smallFold lg [(0, ∅)] small) (i :: rest) ∅ 0).map
            Prod.snd).count (A ∪ ((i :: rest).take j).toFinset) = 1 := by
          have hcnt := ctxtFold_count lg (smallFold lg [(0, ∅)] small) small.toFinset
            (fun e he => (hbaseS e he).2) A hA (i :: rest) ∅ 0 j hjpos hj
            (by simp) hdisjF (by simp) hnc
          have hXe : A ∪ (∅ : Finset ℕ) ∪ ((i :: rest).take j).toFinset =
              A ∪ ((i :: rest).take j).toFinset := by
            rw [Finset.union_empty]
          rw [hXe] at hcnt
          rw [hcnt, hbsets, count_subsets hns, if_pos hA]
        omega

/-- Witness for C3: `smallPrimes = {1, 2}`, `ctxtPrimes = {10, 11}` with
`log q_i` taken to be `i`: the table has `4 * 3 = 12` entries. -/
theorem claim_C3_witness :
    (msInit (fun i => (i : ℚ)) [1, 2] [10, 11]).length = 2^2 * (2 + 1) ∧
    (msInit (fun i => (i : ℚ)) [1, 2] [10, 11]).Pairwise (fun a b => a.1 ≤ b.1) ∧
    (∀ e ∈ msInit (fun i => (i : ℚ)) [1, 2] [10, 11], e.1 = ∑ i ∈ e.2, (i : ℚ)) ∧
    (∀ (A : Finset ℕ) (j : ℕ), A ⊆ ([1, 2] : List ℕ).toFinset → j ≤ ([10, 11] : List ℕ).length →
      ((msInit (fun i => (i : ℚ)) [1, 2] [10, 11]).map Prod.snd).count
        (A ∪ (([10, 11] : List ℕ).take j).toFinset) = 1) :=
  claim_C3_moduliSizes_init_table (fun i => (i : ℚ)) [1, 2] [10, 11]
    (by decide) (by decide) (by decide)

/-- Best-option update of the main scan (primeChain.cpp lines 116-120):
`if (setDiffSize <= bestCost) { bestOption = ii; bestCost = setDiffSize; }`
with `bestOption = -1, bestCost = LONG_MAX` modelled as `none`. -/
def updBest (b : Option (ℕ × ℕ)) (q : ℕ × ℕ) : Option (ℕ × ℕ) :=
  match b with
  | none => some q
  | some (jb, cb) => if q.2 ≤ cb then some q else some (jb, cb)

/-- Strict-improvement update used by the two fallback scans
(primeChain.cpp lines 134-137 and 146-149): `if (setDiffSize < bestCost)`. -/
def updStrict (b : Option (ℕ × ℕ)) (q : ℕ × ℕ) : Option (ℕ × ℕ) :=
  match b with
  | none => some q
  | some (jb, cb) => if q.2 < cb then some q else some (jb, cb)

/-- Main scan of `getSet4Size` (primeChain.cpp lines 114-121): walk the
entries from index `i` upward while `size ≤ high`, tracking
`(bestOption, bestCost)`. -/
def scanBest (fromSet : Finset ℕ) (high : ℚ) :
    List MSEntry → ℕ → Option (ℕ × ℕ) → Option (ℕ × ℕ)
  | [], _, best => best
  | e :: rest, i, best =>
    if e.1 ≤ high then
      scanBest fromSet high rest (i+1) (updBest best (i, (fromSet \ e.2).card))
    else best

/-- Forward slack scan of the `reverse` fallback (primeChain.cpp lines
130-139): from `ii` upward while `size ≤ upperBound`, strict updates. -/
def scanUp (fromSet : Finset ℕ) (ub : ℚ) :
    List MSEntry → ℕ → Option (ℕ × ℕ) → Option (ℕ × ℕ)
  | [], _, best => best
  | e :: rest, i, best =>
    if e.1 ≤ ub then
      scanUp fromSet ub rest (i+1) (updStrict best (i, (fromSet \ e.2).card))
    else best

/-- Backward slack scan of the default fallback (primeChain.cpp lines
142-151): from `idx-1` downward while `size ≥ lowerBound`, strict
updates (the argument is the index after the one being visited). -/
def scanDown (fromSet : Finset ℕ) (lb : ℚ) (l : List MSEntry) :
    ℕ → Option (ℕ × ℕ) → Option (ℕ × ℕ)
  | 0, best => best
  | i+1, best =>
    match l[i]? with
    | none => best
    | some e =>
      if lb ≤ e.1 then
        scanDown fromSet lb l i (updStrict best (i, (fromSet \ e.2).card))
      else best

/-- `ModuliSizes::getSet4Size(low, high, fromSet, reverse)`
(primeChain.cpp lines 101-158).  `std::lower_bound` over the
size-sorted table is the first index whose size is `≥ low` (the
`IndexSet` tiebreak in the pair comparison never fires against the
empty probe set).  When the main scan finds nothing it stopped at
`ii = idx` (its very first bound check failed), which is where the
`reverse` fallback starts; `ln2` is the one-bit slack `log(2.0)`.  The
final `assert(bestOption != -1)` is the `none` result. -/
def getSet4Size (ln2 : ℚ) (l : List MSEntry) (low high : ℚ)
    (fromSet : Finset ℕ) (rev : Bool) : Option (Finset ℕ) :=
  let idx := l.findIdx (fun e => decide (low ≤ e.1))
  match scanBest fromSet high (l.drop idx) idx none with
  | some (jb, _) => (l[jb]?).map Prod.snd
  | none =>
    let fb :=
      if rev then
        match l[idx]? with
        | none => none
        | some eii => scanUp fromSet (eii.1 + ln2) (l.drop idx) idx none
      else
        match idx with
        | 0 => none
        | idx0 + 1 =>
          match l[idx0]? with
          | none => none
          | some elast => scanDown fromSet (elast.1 - ln2) l (idx0 + 1) none
    match fb with
    | some (jb, _) => (l[jb]?).map Prod.snd
    | none => none

lemma scanBest_go (fromSet : Finset ℕ) (high : ℚ) :
    ∀ (es : List MSEntry) (i0 : ℕ) (best : Option (ℕ × ℕ)),
      (∀ q ∈ best.toList, q.1 < i0) →
      es.Pairwise (fun a b => a.1 ≤ b.1) →
      (match scanBest fromSet high es i0 best with
       | none => best = none ∧
           (∀ (j : ℕ) (ej : MSEntry), es[j]? = some ej → ¬(ej.1 ≤ high))
       | some (i, c) =>
           ((i, c) ∈ best.toList ∨ (∃ (j : ℕ) (ej : MSEntry),
               es[j]? = some ej ∧ ej.1 ≤ high ∧
               i = i0 + j ∧ c = (fromSet \ ej.2).card)) ∧
           (∀ q ∈ best.toList, c ≤ q.2 ∧ (q.2 = c → q.1 ≤ i)) ∧
           (∀ (j : ℕ) (ej : MSEntry), es[j]? = some ej → ej.1 ≤ high →
               c ≤ (fromSet \ ej.2).card ∧
               ((fromSet \ ej.2).card = c → i0 + j ≤ i))) := by
  intro es
  induction es with
  | nil =>
    intro i0 best hb _
    rw [scanBest]
    cases best with
    | none =>
      refine ⟨rfl, ?_⟩
      intro j ej h
      rw [List.getElem?_nil] at h
      exact Option.noConfusion h
    | some q =>
      obtain ⟨i, c⟩ := q
      refine ⟨Or.inl (by simp), ?_, ?_⟩
      case refine_2 =>
        intro j ej h
        rw [List.getElem?_nil] at h
        exact Option.noConfusion h
      intro q hq
      simp only [Option.toList_some, List.mem_singleton] at hq
      subst hq
      exact ⟨le_rfl, fun _ => le_rfl⟩
  | cons e rest ih =>
    intro i0 best hb hsort
    rw [List.pairwise_cons] at hsort
    rw [scanBest]
    by_cases he : e.1 ≤ high
    · rw [if_pos he]
      have hb' : ∀ q ∈ (updBest best (i0, (fromSet \ e.2).card)).toList, q.1 < i0 + 1 := by
        intro q hq
        cases best with
        | none =>
          simp only [updBest, Option.toList_some, List.mem_singleton] at hq
          subst hq
          omega
        | some b0 =>
          obtain ⟨jb, cb⟩ := b0
          simp only [updBest] at hq
          by_cases hc : (fromSet \ e.2).card ≤ cb
          · rw [if_pos hc] at hq
            simp only [Option.toList_some, List.mem_singleton] at hq
            subst hq
            omega
          · rw [if_neg hc] at hq
            simp only [Option.toList_some, List.mem_singleton] at hq
            subst hq
            have := hb (jb, cb) (by simp)
            simp at this ⊢
            omega
      have key := ih (i0 + 1) (updBest best (i0, (fromSet \ e.2).card)) hb' hsort.2
      cases hres : scanBest fromSet high rest (i0+1) (updBest best (i0, (fromSet \ e.2).card)) with
      | none =>
        rw [hres] at key
        exfalso
        cases best with
        | none => simp [updBest] at key
        | some b0 =>
          obtain ⟨jb, cb⟩ := b0
          simp only [updBest] at key
          by_cases hc : (fromSet \ e.2).card ≤ cb
          · rw [if_pos hc] at key
            exact Option.noConfusion key.1
          · rw [if_neg hc] at key
            exact Option.noConfusion key.1
      | some q =>
        obtain ⟨i, c⟩ := q
        rw [hres] at key
        obtain ⟨kmem, kbest, krest⟩ := key
        refine ⟨?_, ?_, ?_⟩
        · -- membership transfer
          rcases kmem with hm | ⟨j, ej, hj, hjh, hieq, hceq⟩
          · -- (i,c) is the updated best
            cases best with
            | none =>
              simp only [updBest, Option.toList_some, List.mem_singleton] at hm
              rw [Prod.mk.injEq] at hm
              right
              exact ⟨0, e, by simp, he, by omega, hm.2⟩
            | some b0 =>
              obtain ⟨jb, cb⟩ := b0
              simp only [updBest] at hm
              by_cases hc : (fromSet \ e.2).card ≤ cb
              · rw [if_pos hc] at hm
                simp only [Option.toList_some, List.mem_singleton] at hm
                rw [Prod.mk.injEq] at hm
                right
                exact ⟨0, e, by simp, he, by omega, hm.2⟩
              · rw [if_neg hc] at hm
                simp only [Option.toList_some, List.mem_singleton] at hm
                left
                simp [hm]
          · right
            exact ⟨j + 1, ej, by simpa using hj, hjh, by omega, hceq⟩
        · -- previous best candidates
          intro q hq
          cases best with
          | none => simp at hq
          | some b0 =>
            obtain ⟨jb, cb⟩ := b0
            simp only [Option.toList_some, List.mem_singleton] at hq
            subst hq
            simp only [updBest] at kbest
            by_cases hc : (fromSet \ e.2).card ≤ cb
            · rw [if_pos hc] at kbest
              have h1 := kbest (i0, (fromSet \ e.2).card) (by simp)
              constructor
              · exact le_trans h1.1 hc
              · intro hcb
                have hcc : (fromSet \ e.2).card = c := le_antisymm (hcb ▸ hc) h1.1
                have h2 := h1.2 hcc
                have := hb (jb, cb) (by simp)
                simp at this
                omega
            · rw [if_neg hc] at kbest
              exact kbest (jb, cb) (by simp)
        · -- entries of e :: rest
          intro j ej hj hjh
          cases j with
          | zero =>
            simp only [List.getElem?_cons_zero, Option.some.injEq] at hj
            subst hj
            cases best with
            | none =>
              simp only [updBest] at kbest
              have h1 := kbest (i0, (fromSet \ e.2).card) (by simp)
              exact ⟨h1.1, fun hc => by
                have := h1.2 hc
                omega⟩
            | some b0 =>
              obtain ⟨jb, cb⟩ := b0
              simp only [updBest] at kbest
              by_cases hc : (fromSet \ e.2).card ≤ cb
              · rw [if_pos hc] at kbest
                have h1 := kbest (i0, (fromSet \ e.2).card) (by simp)
                exact ⟨h1.1, fun hceq => by
                  have := h1.2 hceq
                  omega⟩
              · rw [if_neg hc] at kbest
                have h1 := kbest (jb, cb) (by simp)
                push_neg at hc
                constructor
                · omega
                · intro hceq
                  omega
          | succ j' =>
            simp only [List.getElem?_cons_succ] at hj
            have h1 := krest j' ej hj hjh
            exact ⟨h1.1, fun hc => by
              have := h1.2 hc
              omega⟩
    · rw [if_neg he]
      cases best with
      | none =>
        refine ⟨rfl, ?_⟩
        intro j ej hj hjh
        cases j with
        | zero =>
          simp only [List.getElem?_cons_zero, Option.some.injEq] at hj
          subst hj
          exact he hjh
        | succ j' =>
          simp only [List.getElem?_cons_succ] at hj
          rw [List.getElem?_eq_some] at hj
          obtain ⟨hlt, hj⟩ := hj
          have := hsort.1 rest[j'] (List.getElem_mem hlt)
          rw [hj] at this
          exact he (le_trans this hjh)
      | some q =>
        obtain ⟨i, c⟩ := q
        refine ⟨Or.inl (by simp), ?_, ?_⟩
        · intro q hq
          simp only [Option.toList_some, List.mem_singleton] at hq
          subst hq
          exact ⟨le_rfl, fun _ => le_rfl⟩
        · intro j ej hj hjh
          exfalso
          cases j with
          | zero =>
            simp only [List.getElem?_cons_zero, Option.some.injEq] at hj
            subst hj
            exact he hjh
          | succ j' =>
            simp only [List.getElem?_cons_succ] at hj
            rw [List.getElem?_eq_some] at hj
            obtain ⟨hlt, hj⟩ := hj
            have := hsort.1 rest[j'] (List.getElem_mem hlt)
            rw [hj] at this
            exact he (le_trans this hjh)

/-- C2.  On a size-sorted table containing at least one entry with size
in `[low, high]`, `getSet4Size` returns the set of an in-range entry of
minimal cost `|fromSet \ entry.set|`, and among equal-cost in-range
entries the one occurring latest in the ascending scan. -/
theorem claim_C2_getSet4Size_in_range
    (ln2 : ℚ) (l : List MSEntry) (low high : ℚ)
    (fromSet : Finset ℕ) (rev : Bool)
    (hsorted : l.Pairwise (fun a b => a.1 ≤ b.1))
    (hfeas : ∃ (i : ℕ) (e : MSEntry), l[i]? = some e ∧ low ≤ e.1 ∧ e.1 ≤ high) :
    ∃ (i : ℕ) (e : MSEntry), l[i]? = some e ∧
      getSet4Size ln2 l low high fromSet rev = some e.2 ∧
      low ≤ e.1 ∧ e.1 ≤ high ∧
      (∀ (j : ℕ) (ej : MSEntry), l[j]? = some ej → low ≤ ej.1 → ej.1 ≤ high →
        ((fromSet \ e.2).card ≤ (fromSet \ ej.2).card ∧
         ((fromSet \ ej.2).card = (fromSet \ e.2).card → j ≤ i))) := by
  obtain ⟨jf, ef, hjf, hlowf, hhighf⟩ := hfeas
  obtain ⟨hjflt, hjfget⟩ := List.getElem?_eq_some.mp hjf
  have hsortget : ∀ (a b : ℕ) (ha : a < l.length) (hb : b < l.length),
      a ≤ b → (l.get ⟨a, ha⟩).1 ≤ (l.get ⟨b, hb⟩).1 := by
    intro a b ha hb hab
    rcases Nat.lt_or_ge a b with h | h
    · exact (List.pairwise_iff_getElem.mp hsorted) a b ha hb h
    · have : a = b := by omega
      subst this
      exact le_rfl
  have hidxlt : l.findIdx (fun e => decide (low ≤ e.1)) < l.length := by
    apply List.findIdx_lt_length_of_exists
    refine ⟨l[jf], List.getElem_mem hjflt, ?_⟩
    rw [hjfget]
    simpa using hlowf
  set idx := l.findIdx (fun e => decide (low ≤ e.1)) with hidx
  have hA : ∀ j (hj : j < l.length), j < idx → ¬(low ≤ (l.get ⟨j, hj⟩).1) := by
    intro j hj hlt
    have := List.not_of_lt_findIdx hlt
    simpa using this
  have hB : low ≤ (l.get ⟨idx, hidxlt⟩).1 := by
    have := @List.findIdx_getElem MSEntry
      (fun e : MSEntry => decide (low ≤ e.1)) l hidxlt
    simpa using this
  have hjfidx : idx ≤ jf := by
    by_contra hcon
    push_neg at hcon
    exact hA jf hjflt hcon ((show l.get ⟨jf, hjflt⟩ = ef from hjfget) ▸ hlowf)
  have hkey := scanBest_go fromSet high (l.drop idx) idx none
    (by intro q hq; simp at hq)
    (hsorted.sublist (List.drop_sublist idx l))
  cases hscan : scanBest fromSet high (l.drop idx) idx none with
  | none =>
    rw [hscan] at hkey
    exfalso
    have := hkey.2 (jf - idx) ef ?_ hhighf
    · exact this
    · rw [List.getElem?_drop]
      have : idx + (jf - idx) = jf := by omega
      rw [this]
      exact hjf
  | some q =>
    obtain ⟨i, c⟩ := q
    rw [hscan] at hkey
    obtain ⟨kmem, _, krest⟩ := hkey
    rcases kmem with hm | ⟨j, ej, hj, hjh, hieq, hceq⟩
    · simp at hm
    rw [List.getElem?_drop] at hj
    rw [← hieq] at hj
    have hilt : i < l.length := (List.getElem?_eq_some.mp hj).1
    have higet : l.get ⟨i, hilt⟩ = ej := (List.getElem?_eq_some.mp hj).2
    have hlowi : low ≤ ej.1 := by
      rw [← higet]
      calc low ≤ (l.get ⟨idx, hidxlt⟩).1 := hB
      _ ≤ (l.get ⟨i, hilt⟩).1 := hsortget idx i hidxlt hilt (by omega)
    refine ⟨i, ej, hj, ?_, hlowi, hjh, ?_⟩
    · show getSet4Size ln2 l low high fromSet rev = some ej.2
      rw [getSet4Size]
      rw [← hidx, hscan]
      show Option.map Prod.snd l[i]? = some ej.2
      rw [hj]
      rfl
    · intro j' ej' hj' hlow' hhigh'
      obtain ⟨hj'lt, hj'get⟩ := List.getElem?_eq_some.mp hj'
      have hj'idx : idx ≤ j' := by
        by_contra hcon
        push_neg at hcon
        exact hA j' hj'lt hcon
          ((show l.get ⟨j', hj'lt⟩ = ej' from hj'get) ▸ hlow')
      have hdrop : (l.drop idx)[j' - idx]? = some ej' := by
        rw [List.getElem?_drop]
        have : idx + (j' - idx) = j' := by omega
        rw [this]
        exact hj'
      have := krest (j' - idx) ej' hdrop hhigh'
      rw [← hceq]
      exact ⟨this.1, fun hc => by
        have := this.2 hc
        omega⟩

/-- Concrete four-entry sorted table used by the C2 witness. -/
def lW : List MSEntry := [(0, ∅), (1, {1}), (2, {2}), (3, {1, 2})]

/-- Witness for C2: querying `[1, 2]` against `fromSet = {2}` on the
concrete table returns the in-range entry `{2}` of cost 0. -/
theorem claim_C2_witness :
    getSet4Size 1 lW 1 2 {2} false = some {2} ∧
    (∃ (i : ℕ) (e : MSEntry), lW[i]? = some e ∧
      getSet4Size 1 lW 1 2 {2} false = some e.2 ∧
      (1:ℚ) ≤ e.1 ∧ e.1 ≤ (2:ℚ) ∧
      (∀ (j : ℕ) (ej : MSEntry), lW[j]? = some ej → (1:ℚ) ≤ ej.1 → ej.1 ≤ (2:ℚ) →
        ((({2} : Finset ℕ) \ e.2).card ≤ (({2} : Finset ℕ) \ ej.2).card ∧
         ((({2} : Finset ℕ) \ ej.2).card = (({2} : Finset ℕ) \ e.2).card → j ≤ i)))) :=
  ⟨by decide,
    claim_C2_getSet4Size_in_range 1 lW 1 2 {2} false (by decide)
      ⟨1, (1, {1}), rfl, by norm_num, by norm_num⟩⟩

/-- `FHEcontext` model: the chain of moduli values (indexed in
registration order), the three role index sets and the key-switching
digit sequence. -/
structure FHEcontext where
  moduli : List ℕ
  smallPrimes : Finset ℕ
  ctxtPrimes : Finset ℕ
  specialPrimes : Finset ℕ
  digits : List (Finset ℕ)
deriving DecidableEq

/-- `FHEcontext::inChain(q)`: whether `q` is already one of the chain's
moduli (in any role). -/
def FHEcontext.inChain (ctx : FHEcontext) (q : ℕ) : Bool := decide (q ∈ ctx.moduli)

/-- `FHEcontext::AddSmallPrime` (primeChain.cpp lines 337-343):
`assert(!inChain(q))`, append the modulus, record its index under
`smallPrimes`. -/
def AddSmallPrime (ctx : FHEcontext) (q : ℕ) : Option FHEcontext :=
  if ctx.inChain q then none
  else some { ctx with moduli := ctx.moduli ++ [q],
                       smallPrimes := insert ctx.moduli.length ctx.smallPrimes }

/-- `FHEcontext::AddCtxtPrime` (primeChain.cpp lines 345-351). -/
def AddCtxtPrime (ctx : FHEcontext) (q : ℕ) : Option FHEcontext :=
  if ctx.inChain q then none
  else some { ctx with moduli := ctx.moduli ++ [q],
                       ctxtPrimes := insert ctx.moduli.length ctx.ctxtPrimes }

/-- `FHEcontext::AddSpecialPrime` (primeChain.cpp lines 353-359). -/
def AddSpecialPrime (ctx : FHEcontext) (q : ℕ) : Option FHEcontext :=
  if ctx.inChain q then none
  else some { ctx with moduli := ctx.moduli ++ [q],
                       specialPrimes := insert ctx.moduli.length ctx.specialPrimes }

/-- `FHEcontext::logOfProduct(s) = Σ_{i ∈ s} log q_i`, with `llog`
standing for the abstract natural logarithm on `ℚ`. -/
def ctxLog (llog : ℚ → ℚ) (moduli : List ℕ) (s : Finset ℕ) : ℚ :=
  ∑ i ∈ s, llog ((moduli.getD i 0 : ℕ) : ℚ)

/-- Size seed of `addSmallPrimes` (primeChain.cpp lines 372-386):
two 40-bit primes when `SP_NBITS ≥ 60`, two 35-bit when `≥ 50`,
three 22-bit when `≥ 30`; the `assert(NTL_SP_NBITS >= 30)` is `none`. -/
def smallSizesSeed (spNbits : ℕ) : Option (List ℕ) :=
  if 60 ≤ spNbits then some [40, 40]
  else if 50 ≤ spNbits then some [35, 35]
  else if 30 ≤ spNbits then some [22, 22, 22]
  else none

/-- The `for (delta=resolution; NTL_SP_NBITS-delta>sizes[0]; delta*=2)`
loop of `addSmallPrimes` (primeChain.cpp lines 391-392), with fuel
(`delta` doubles, so `spNbits` iterations always suffice). -/
def deltaLoop (spNbits s0 : ℕ) : ℕ → ℕ → List ℕ
  | 0, _ => []
  | fuel+1, delta =>
    if s0 < spNbits - delta then
      (spNbits - delta) :: deltaLoop spNbits s0 fuel (delta * 2)
    else []

/-- Registration loop of `addSmallPrimes` (primeChain.cpp lines
407-415): walk the sorted size list, constructing a new generator
whenever the size changes, and register one prime per entry. -/
def smallLoop (pp : ℕ → Bool) (fuel spNbits m : ℕ) :
    List ℕ → ℕ → Option PrimeGenerator → FHEcontext → Option FHEcontext
  | [], _, _, ctx => some ctx
  | sz :: rest, lastSz, gen, ctx =>
    match (if sz ≠ lastSz then mkPrimeGenerator spNbits sz m else gen) with
    | none => none
    | some g =>
      match nextGo pp fuel g with
      | .error _ => none
      | .ok (q, g1) =>
        match AddSmallPrime ctx q with
        | none => none
        | some ctx1 => smallLoop pp fuel spNbits m rest sz (some g1) ctx1

/-- `addSmallPrimes(context, resolution)` (primeChain.cpp lines
362-416). -/
def addSmallPrimes (pp : ℕ → Bool) (fuel spNbits : ℕ)
    (ctx : FHEcontext) (m resolution : ℕ) : Option FHEcontext :=
  if m = 0 ∨ 2^20 < m then none
  else
    let res := if resolution < 1 ∨ 10 < resolution then 3 else resolution
    match smallSizesSeed spNbits with
    | none => none
    | some seed =>
      let s0 := seed.headD 0
      let sizes1 := seed ++ deltaLoop spNbits s0 spNbits res
      let sizes2 := sizes1 ++ (if s0 < spNbits - 3*res then [spNbits - 3*res] else [])
      let sizes3 := sizes2 ++
        (if res = 1 ∧ s0 < spNbits - 11 then [spNbits - 11] else [])
      smallLoop pp fuel spNbits m (sizes3.mergeSort (fun a b => decide (a ≤ b)))
        0 none ctx

/-- The `while (bitlen < nBits)` loop of `addCtxtPrimes`
(primeChain.cpp lines 430-434), with outer fuel; `log2q q` stands for
`log2(q)`. -/
def ctxtLoop (pp : ℕ → Bool) (fuel : ℕ) (log2q : ℕ → ℚ) (nBits : ℚ) :
    ℕ → PrimeGenerator → ℚ → FHEcontext → Option FHEcontext
  | 0, _, _, _ => none
  | n+1, g, bitlen, ctx =>
    if bitlen < nBits then
      match nextGo pp fuel g with
      | .error _ => none
      | .ok (q, g1) =>
        match AddCtxtPrime ctx q with
        | none => none
        | some ctx1 => ctxtLoop pp fuel log2q nBits n g1 (bitlen + log2q q) ctx1
    else some ctx

/-- `addCtxtPrimes(context, nBits)` (primeChain.cpp lines 418-437):
primes of size `NTL_SP_NBITS` are added until `Σ log2 q ≥ nBits`. -/
def addCtxtPrimes (pp : ℕ → Bool) (fuelOut fuelIn spNbits : ℕ)
    (log2q : ℕ → ℚ) (ctx : FHEcontext) (m : ℕ) (nBits : ℚ) : Option FHEcontext :=
  match mkPrimeGenerator spNbits spNbits m with
  | none => none
  | some g => ctxtLoop pp fuelIn log2q nBits fuelOut g 0 ctx

/-- Inner digit-building loop of `addSpecialPrimes` (primeChain.cpp
lines 473-477): `while (idx <= ctxtPrimes.last() && (empty(s) ||
logSoFar < target))` take the next ctxt index into the digit.  The
remaining index list is returned together with the digit and the
updated `logSoFar`. -/
def digitTake (llog : ℚ → ℚ) (moduli : List ℕ) (target : ℚ) :
    List ℕ → ℚ → Finset ℕ → Finset ℕ × ℚ × List ℕ
  | [], logSoFar, s => (s, logSoFar, [])
  | idx :: rest, logSoFar, s =>
    if s = ∅ ∨ logSoFar < target then
      digitTake llog moduli target rest
        (logSoFar + llog ((moduli.getD idx 0 : ℕ) : ℚ)) (insert idx s)
    else (s, logSoFar, idx :: rest)

/-- Outer digit loop of `addSpecialPrimes` (primeChain.cpp lines
471-484): build the first `nDgts-1` digits, failing on the
`assert(!empty(s))`, advancing `target` by `dlog` per digit. -/
def digitsLoop (llog : ℚ → ℚ) (moduli : List ℕ) (dlog : ℚ) :
    ℕ → List ℕ → ℚ → ℚ → List (Finset ℕ) → Option (List (Finset ℕ) × List ℕ)
  | 0, remaining, _, _, acc => some (acc, remaining)
  | cnt+1, remaining, logSoFar, target, acc =>
    match digitTake llog moduli target remaining logSoFar ∅ with
    | (s, logSoFar1, remaining1) =>
      if s = ∅ then none
      else digitsLoop llog moduli dlog cnt remaining1 logSoFar1 (target + dlog)
        (acc ++ [s])

/-- Ascending enumeration of an index set, as produced by the
`idx = s.first(); idx <= s.last(); idx = s.next(idx)` iteration of
`IndexSet` (primeChain.cpp lines 473-477). -/
def idxAsc (s : Finset ℕ) : List ℕ :=
  (List.range (s.sup id + 1)).filter (fun i => decide (i ∈ s))

lemma idxAsc_sorted_lt (s : Finset ℕ) : (idxAsc s).Sorted (· < ·) :=
  (List.pairwise_lt_range _).sublist (List.filter_sublist _)

lemma idxAsc_nodup (s : Finset ℕ) : (idxAsc s).Nodup :=
  (List.nodup_range _).filter _

lemma idxAsc_toFinset (s : Finset ℕ) : (idxAsc s).toFinset = s := by
  ext x
  simp only [idxAsc, List.mem_toFinset, List.mem_filter, List.mem_range,
    Nat.lt_succ_iff, decide_eq_true_iff]
  exact ⟨fun h => h.2, fun h => ⟨@Finset.le_sup ℕ ℕ _ _ s id x h, h⟩⟩

/-- The digit partition of `addSpecialPrimes` (primeChain.cpp lines
459-500): clamp `nDgts` to `[1, |ctxtPrimes|]`; for `nDgts > 1` build
`nDgts-1` greedy digits over the ascending ctxt indices and let the
leftover primes form the last digit (dropped when empty); for
`nDgts = 1` the single digit is `ctxtPrimes` itself. -/
def buildDigits (llog : ℚ → ℚ) (ctx : FHEcontext) (nDgts : ℕ) :
    Option (List (Finset ℕ)) :=
  let nCtxt := ctx.ctxtPrimes.card
  let nD1 := if nCtxt < nDgts then nCtxt else nDgts
  let nD := if nD1 = 0 then 1 else nD1
  if 1 < nD then
    let dlog := ctxLog llog ctx.moduli ctx.ctxtPrimes / nD
    match digitsLoop llog ctx.moduli dlog (nD - 1)
        (idxAsc ctx.ctxtPrimes) 0 dlog [] with
    | none => none
    | some (acc, _) =>
      let s1 := acc.foldl (· ∪ ·) ∅
      let lastS := ctx.ctxtPrimes \ s1
      if lastS = ∅ then some acc else some (acc ++ [lastS])
  else some [ctx.ctxtPrimes]

/-- The `while (logSoFar < logOfSpecialPrimes)` registration loop of
`addSpecialPrimes` (primeChain.cpp lines 529-541): candidates already
in the chain are skipped; fresh ones are registered under
`specialPrimes` and accumulate `log q`. -/
def specialLoop (pp : ℕ → Bool) (fuelIn : ℕ) (llog : ℚ → ℚ) (target : ℚ) :
    ℕ → PrimeGenerator → ℚ → FHEcontext → Option FHEcontext
  | 0, _, _, _ => none
  | n+1, g, logSoFar, ctx =>
    if logSoFar < target then
      match nextGo pp fuelIn g with
      | .error _ => none
      | .ok (q, g1) =>
        if ctx.inChain q then specialLoop pp fuelIn llog target n g1 logSoFar ctx
        else
          match AddSpecialPrime ctx q with
          | none => none
          | some ctx1 =>
            specialLoop pp fuelIn llog target n g1 (logSoFar + llog (q : ℚ)) ctx1
    else some ctx

/-- `addSpecialPrimes(context, nDgts, willBeBootstrappable)`
(primeChain.cpp lines 440-542).  `pVal, p2r` are `p` and `p^r` from the
algebra, `(e, ePrime)` the bootstrapping oracle's output, `stdev` the
context's noise deviation; `llog` is the abstract natural logarithm. -/
def addSpecialPrimes (pp : ℕ → Bool) (fuelOut fuelIn spNbits : ℕ)
    (llog : ℚ → ℚ) (pVal p2r e ePrime : ℕ) (wbb : Bool) (stdev : ℚ)
    (m nDgts : ℕ) (ctx : FHEcontext) : Option FHEcontext :=
  let p2e := if wbb then p2r * pVal^(e - ePrime) else p2r
  match buildDigits llog ctx nDgts with
  | none => none
  | some digits =>
    let ctx1 := { ctx with digits := digits }
    let maxDigitLog := (digits.map (fun s => ctxLog llog ctx.moduli s)).foldl max 0
    let target := maxDigitLog + llog (digits.length : ℚ) + llog (stdev * 2) +
      llog (p2e : ℚ)
    let totalBits := target / llog 2
    let numPrimes : ℤ := ⌈totalBits / (spNbits : ℚ)⌉
    let nbits0 : ℤ := ⌈totalBits / (numPrimes : ℚ)⌉ + 1
    let nbits : ℕ := if (spNbits : ℤ) < nbits0 then spNbits else nbits0.toNat
    match mkPrimeGenerator spNbits nbits m with
    | none => none
    | some g => specialLoop pp fuelIn llog target fuelOut g 0 ctx1

lemma getD_concat_self (l : List ℕ) (q : ℕ) : (l ++ [q]).getD l.length 0 = q := by
  simp [List.getD]

lemma getD_concat_lt (l : List ℕ) (q x : ℕ) (h : x < l.length) :
    (l ++ [q]).getD x 0 = l.getD x 0 :=
  List.getD_append l [q] 0 x h

lemma AddCtxtPrime_ok {ctx ctx1 : FHEcontext} {q : ℕ}
    (h : AddCtxtPrime ctx q = some ctx1) :
    q ∉ ctx.moduli ∧ ctx1.moduli = ctx.moduli ++ [q] ∧
    ctx1.ctxtPrimes = insert ctx.moduli.length ctx.ctxtPrimes ∧
    ctx1.smallPrimes = ctx.smallPrimes ∧
    ctx1.specialPrimes = ctx.specialPrimes ∧ ctx1.digits = ctx.digits := by
  rw [AddCtxtPrime] at h
  by_cases hin : q ∈ ctx.moduli
  · simp [FHEcontext.inChain, hin] at h
  · simp only [FHEcontext.inChain, hin, decide_False, Bool.false_eq_true,
      if_false, Option.some.injEq] at h
    rw [← h]
    exact ⟨hin, rfl, rfl, rfl, rfl, rfl⟩

lemma AddSmallPrime_ok {ctx ctx1 : FHEcontext} {q : ℕ}
    (h : AddSmallPrime ctx q = some ctx1) :
    q ∉ ctx.moduli ∧ ctx1.moduli = ctx.moduli ++ [q] ∧
    ctx1.smallPrimes = insert ctx.moduli.length ctx.smallPrimes ∧
    ctx1.ctxtPrimes = ctx.ctxtPrimes ∧
    ctx1.specialPrimes = ctx.specialPrimes ∧ ctx1.digits = ctx.digits := by
  rw [AddSmallPrime] at h
  by_cases hin : q ∈ ctx.moduli
  · simp [FHEcontext.inChain, hin] at h
  · simp only [FHEcontext.inChain, hin, decide_False, Bool.false_eq_true,
      if_false, Option.some.injEq] at h
    rw [← h]
    exact ⟨hin, rfl, rfl, rfl, rfl, rfl⟩

lemma AddSpecialPrime_ok {ctx ctx1 : FHEcontext} {q : ℕ}
    (h : AddSpecialPrime ctx q = some ctx1) :
    q ∉ ctx.moduli ∧ ctx1.moduli = ctx.moduli ++ [q] ∧
    ctx1.specialPrimes = insert ctx.moduli.length ctx.specialPrimes ∧
    ctx1.ctxtPrimes = ctx.ctxtPrimes ∧
    ctx1.smallPrimes = ctx.smallPrimes ∧ ctx1.digits = ctx.digits := by
  rw [AddSpecialPrime] at h
  by_cases hin : q ∈ ctx.moduli
  · simp [FHEcontext.inChain, hin] at h
  · simp only [FHEcontext.inChain, hin, decide_False, Bool.false_eq_true,
      if_false, Option.some.injEq] at h
    rw [← h]
    exact ⟨hin, rfl, rfl, rfl, rfl, rfl⟩

lemma ctxtLoop_spec (pp : ℕ → Bool) (fuel : ℕ) (log2q : ℕ → ℚ) (nBits : ℚ) :
    ∀ (n : ℕ) (g : PrimeGenerator) (bitlen : ℚ) (ctx ctx' : FHEcontext),
      (∀ i ∈ ctx.ctxtPrimes, i < ctx.moduli.length) →
      bitlen = ∑ i ∈ ctx.ctxtPrimes, log2q (ctx.moduli.getD i 0) →
      ctxtLoop pp fuel log2q nBits n g bitlen ctx = some ctx' →
      (nBits ≤ ∑ i ∈ ctx'.ctxtPrimes, log2q (ctx'.moduli.getD i 0)) ∧
      (bitlen < nBits → ∃ last ∈ ctx'.ctxtPrimes,
        (∀ i ∈ ctx'.ctxtPrimes, i ≤ last) ∧
        ∑ i ∈ ctx'.ctxtPrimes.erase last, log2q (ctx'.moduli.getD i 0) < nBits) := by
  intro n
  induction n with
  | zero =>
    intro g bitlen ctx ctx' _ _ h
    simp [ctxtLoop] at h
  | succ n ih =>
    intro g bitlen ctx ctx' hsub hbit h
    rw [ctxtLoop] at h
    by_cases hlt : bitlen < nBits
    · rw [if_pos hlt] at h
      cases hnext : nextGo pp fuel g with
      | error e =>
        simp only [hnext] at h
        exact Option.noConfusion h
      | ok pr =>
        obtain ⟨q, g1⟩ := pr
        simp only [hnext] at h
        cases hadd : AddCtxtPrime ctx q with
        | none =>
          simp only [hadd] at h
          exact Option.noConfusion h
        | some ctx1 =>
          simp only [hadd] at h
          have hctx1 : ctx1.moduli = ctx.moduli ++ [q] ∧
              ctx1.ctxtPrimes = insert ctx.moduli.length ctx.ctxtPrimes :=
            ⟨(AddCtxtPrime_ok hadd).2.1, (AddCtxtPrime_ok hadd).2.2.1⟩
          have hLnot : ctx.moduli.length ∉ ctx.ctxtPrimes := by
            intro hmem
            exact absurd (hsub _ hmem) (by omega)
          have hsub1 : ∀ i ∈ ctx1.ctxtPrimes, i < ctx1.moduli.length := by
            intro i hi
            rw [hctx1.2] at hi
            rw [hctx1.1, List.length_append]
            rcases Finset.mem_insert.mp hi with h' | h'
            · simp [h']
            · have := hsub i h'
              simp
              omega
          have hsum1 : ∑ i ∈ ctx1.ctxtPrimes, log2q (ctx1.moduli.getD i 0) =
              bitlen + log2q q := by
            rw [hctx1.1, hctx1.2, Finset.sum_insert hLnot, getD_concat_self]
            have : ∑ i ∈ ctx.ctxtPrimes,
                log2q ((ctx.moduli ++ [q]).getD i 0) =
                ∑ i ∈ ctx.ctxtPrimes, log2q (ctx.moduli.getD i 0) := by
              apply Finset.sum_congr rfl
              intro i hi
              rw [getD_concat_lt _ _ _ (hsub i hi)]
            rw [this, hbit]
            ring
          obtain ⟨ha, hb⟩ := ih g1 (bitlen + log2q q) ctx1 ctx' hsub1 hsum1.symm h
          refine ⟨ha, fun _ => ?_⟩
          by_cases hlt1 : bitlen + log2q q < nBits
          · exact hb hlt1
          · -- the loop exits right after this insertion: ctx' = ctx1
            have hctx' : ctx' = ctx1 := by
              cases n with
              | zero => simp [ctxtLoop] at h
              | succ n' =>
                rw [ctxtLoop, if_neg hlt1] at h
                exact (Option.some.inj h).symm
            subst hctx'
            refine ⟨ctx.moduli.length, by rw [hctx1.2]; simp, ?_, ?_⟩
            · intro i hi
              rw [hctx1.2] at hi
              rcases Finset.mem_insert.mp hi with h' | h'
              · omega
              · have := hsub i h'
                omega
            · rw [hctx1.2, hctx1.1]
              rw [Finset.erase_insert hLnot]
              have : ∑ i ∈ ctx.ctxtPrimes,
                  log2q ((ctx.moduli ++ [q]).getD i 0) =
                  ∑ i ∈ ctx.ctxtPrimes, log2q (ctx.moduli.getD i 0) := by
                apply Finset.sum_congr rfl
                intro i hi
                rw [getD_concat_lt _ _ _ (hsub i hi)]
              rw [this, ← hbit]
              exact hlt
    · rw [if_neg hlt] at h
      have hctx' : ctx' = ctx := (Option.some.inj h).symm
      subst hctx'
      push_neg at hlt
      exact ⟨hbit ▸ hlt, fun hc => absurd hc (by rw [hbit] at hlt ⊢; exact not_lt.mpr hlt)⟩

/-- C4.  When `addCtxtPrimes(context, nBits)` succeeds on a context
with no ctxt primes yet, the sum of `log2 q` over the registered ctxt
primes is at least `nBits`, and removing the last-registered ctxt prime
(the one of maximal index) drops the sum strictly below `nBits`. -/
theorem claim_C4_addCtxtPrimes_budget
    (pp : ℕ → Bool) (fuelOut fuelIn spNbits : ℕ) (log2q : ℕ → ℚ)
    (ctx ctx' : FHEcontext) (m : ℕ) (nBits : ℚ)
    (hinit : ctx.ctxtPrimes = ∅)
    (h : addCtxtPrimes pp fuelOut fuelIn spNbits log2q ctx m nBits = some ctx') :
    nBits ≤ ∑ i ∈ ctx'.ctxtPrimes, log2q (ctx'.moduli.getD i 0) ∧
    (0 < nBits → ∃ last ∈ ctx'.ctxtPrimes,
      (∀ i ∈ ctx'.ctxtPrimes, i ≤ last) ∧
      ∑ i ∈ ctx'.ctxtPrimes.erase last, log2q (ctx'.moduli.getD i 0) < nBits) := by
  rw [addCtxtPrimes] at h
  cases hmk : mkPrimeGenerator spNbits spNbits m with
  | none =>
    rw [hmk] at h
    exact Option.noConfusion h
  | some g =>
    rw [hmk] at h
    exact ctxtLoop_spec pp fuelIn log2q nBits fuelOut g 0 ctx ctx'
      (by rw [hinit]; intro i hi; simp at hi)
      (by rw [hinit]; simp) h

lemma specialLoop_spec (pp : ℕ → Bool) (fuelIn : ℕ) (llog : ℚ → ℚ) (target : ℚ) :
    ∀ (n : ℕ) (g : PrimeGenerator) (logSoFar : ℚ) (ctx ctx' : FHEcontext),
      (∀ i ∈ ctx.specialPrimes, i < ctx.moduli.length) →
      logSoFar = ∑ i ∈ ctx.specialPrimes, llog ((ctx.moduli.getD i 0 : ℕ) : ℚ) →
      specialLoop pp fuelIn llog target n g logSoFar ctx = some ctx' →
      (target ≤ ∑ i ∈ ctx'.specialPrimes, llog ((ctx'.moduli.getD i 0 : ℕ) : ℚ)) ∧
      ctx'.digits = ctx.digits ∧ ctx'.ctxtPrimes = ctx.ctxtPrimes ∧
      ctx'.smallPrimes = ctx.smallPrimes ∧
      (∃ suff, ctx'.moduli = ctx.moduli ++ suff) := by
  intro n
  induction n with
  | zero =>
    intro g logSoFar ctx ctx' _ _ h
    simp [specialLoop] at h
  | succ n ih =>
    intro g logSoFar ctx ctx' hsub hlog h
    rw [specialLoop] at h
    by_cases hlt : logSoFar < target
    · rw [if_pos hlt] at h
      cases hnext : nextGo pp fuelIn g with
      | error e =>
        simp only [hnext] at h
        exact Option.noConfusion h
      | ok pr =>
        obtain ⟨q, g1⟩ := pr
        simp only [hnext] at h
        by_cases hin : ctx.inChain q
        · rw [if_pos hin] at h
          exact ih g1 logSoFar ctx ctx' hsub hlog h
        · rw [if_neg hin] at h
          cases hadd : AddSpecialPrime ctx q with
          | none =>
            simp only [hadd] at h
            exact Option.noConfusion h
          | some ctx1 =>
            simp only [hadd] at h
            obtain ⟨_, hmod, hspec, hctxt, hsmall, hdig⟩ := AddSpecialPrime_ok hadd
            have hLnot : ctx.moduli.length ∉ ctx.specialPrimes := by
              intro hmem
              exact absurd (hsub _ hmem) (by omega)
            have hsub1 : ∀ i ∈ ctx1.specialPrimes, i < ctx1.moduli.length := by
              intro i hi
              rw [hspec] at hi
              rw [hmod, List.length_append]
              rcases Finset.mem_insert.mp hi with h' | h'
              · simp [h']
              · have := hsub i h'
                simp
                omega
            have hsum1 : ∑ i ∈ ctx1.specialPrimes,
                llog ((ctx1.moduli.getD i 0 : ℕ) : ℚ) = logSoFar + llog (q : ℚ) := by
              rw [hmod, hspec, Finset.sum_insert hLnot, getD_concat_self]
              have : ∑ i ∈ ctx.specialPrimes,
                  llog (((ctx.moduli ++ [q]).getD i 0 : ℕ) : ℚ) =
                  ∑ i ∈ ctx.specialPrimes, llog ((ctx.moduli.getD i 0 : ℕ) : ℚ) := by
                apply Finset.sum_congr rfl
                intro i hi
                rw [getD_concat_lt _ _ _ (hsub i hi)]
              rw [this, hlog]
              ring
            obtain ⟨a1, a2, a3, a4, a5⟩ := ih g1 (logSoFar + llog (q : ℚ)) ctx1 ctx'
              hsub1 hsum1.symm h
            refine ⟨a1, a2.trans hdig, a3.trans hctxt, a4.trans hsmall, ?_⟩
            obtain ⟨suff, hsuff⟩ := a5
            exact ⟨q :: suff, by rw [hsuff, hmod]; simp⟩
    · rw [if_neg hlt] at h
      have hctx' : ctx' = ctx := (Option.some.inj h).symm
      subst hctx'
      push_neg at hlt
      exact ⟨hlog ▸ hlt, rfl, rfl, rfl, ⟨[], by simp⟩⟩

lemma digitTake_split (llog : ℚ → ℚ) (moduli : List ℕ) (target : ℚ) :
    ∀ (l : List ℕ) (logSoFar : ℚ) (s : Finset ℕ),
      ∃ pre : List ℕ,
        l = pre ++ (digitTake llog moduli target l logSoFar s).2.2 ∧
        (digitTake llog moduli target l logSoFar s).1 = s ∪ pre.toFinset := by
  intro l
  induction l with
  | nil =>
    intro logSoFar s
    exact ⟨[], by simp [digitTake]⟩
  | cons idx rest ih =>
    intro logSoFar s
    rw [digitTake]
    by_cases hc : s = ∅ ∨ logSoFar < target
    · rw [if_pos hc]
      obtain ⟨pre, hpre1, hpre2⟩ :=
        ih (logSoFar + llog ((moduli.getD idx 0 : ℕ) : ℚ)) (insert idx s)
      refine ⟨idx :: pre, ?_, ?_⟩
      · rw [List.cons_append, ← hpre1]
      · rw [hpre2, List.toFinset_cons]
        ext x
        simp only [Finset.mem_union, Finset.mem_insert]
        tauto
    · rw [if_neg hc]
      exact ⟨[], by simp⟩

lemma digitsLoop_split (llog : ℚ → ℚ) (moduli : List ℕ) (dlog : ℚ) :
    ∀ (cnt : ℕ) (remaining : List ℕ) (logSoFar target : ℚ)
      (acc : List (Finset ℕ)) (out : List (Finset ℕ) × List ℕ),
      digitsLoop llog moduli dlog cnt remaining logSoFar target acc = some out →
      ∃ chunks : List (List ℕ),
        out.1 = acc ++ chunks.map (fun c => c.toFinset) ∧
        remaining = chunks.flatten ++ out.2 ∧
        ∀ c ∈ chunks, c ≠ [] := by
  intro cnt
  induction cnt with
  | zero =>
    intro remaining logSoFar target acc out h
    rw [digitsLoop] at h
    refine ⟨[], ?_, ?_, by simp⟩
    · rw [← Option.some.inj h]
      simp
    · rw [← Option.some.inj h]
      simp
  | succ cnt ih =>
    intro remaining logSoFar target acc out h
    rw [digitsLoop] at h
    obtain ⟨pre, hpre1, hpre2⟩ := digitTake_split llog moduli target remaining logSoFar ∅
    rcases hdt : digitTake llog moduli target remaining logSoFar ∅ with ⟨s, ls1, rem1⟩
    rw [hdt] at hpre1 hpre2
    simp only at hpre1 hpre2
    simp only [hdt] at h
    by_cases hs : s = ∅
    · rw [if_pos hs] at h
      exact Option.noConfusion h
    · rw [if_neg hs] at h
      obtain ⟨chunks, hc1, hc2, hc3⟩ := ih rem1 ls1 (target + dlog)
        (acc ++ [s]) out h
      have hprene : pre ≠ [] := by
        intro hcon
        apply hs
        rw [hpre2, hcon]
        simp
      refine ⟨pre :: chunks, ?_, ?_, ?_⟩
      · rw [hc1, List.map_cons]
        have : s = pre.toFinset := by
          rw [hpre2]
          simp
        rw [this]
        simp
      · rw [List.flatten_cons, List.append_assoc, ← hc2, ← hpre1]
      · intro c hc
        rcases List.mem_cons.mp hc with h' | h'
        · rw [h']; exact hprene
        · exact hc3 c h'

lemma foldl_union_toFinset :
    ∀ (chunks : List (List ℕ)) (s0 : Finset ℕ),
      (chunks.map (fun c => c.toFinset)).foldl (· ∪ ·) s0 =
        s0 ∪ chunks.flatten.toFinset := by
  intro chunks
  induction chunks with
  | nil => intro s0; simp
  | cons c rest ih =>
    intro s0
    rw [List.map_cons, List.foldl_cons, ih, List.flatten_cons, List.toFinset_append]
    rw [Finset.union_assoc]

lemma buildDigits_spec (llog : ℚ → ℚ) (ctx : FHEcontext) (nDgts : ℕ)
    (digits : List (Finset ℕ)) (hne : ctx.ctxtPrimes.Nonempty)
    (h : buildDigits llog ctx nDgts = some digits) :
    (∀ d ∈ digits, d ⊆ ctx.ctxtPrimes ∧ d ≠ ∅) ∧
    (∀ x, x ∈ ctx.ctxtPrimes ↔ ∃ d ∈ digits, x ∈ d) ∧
    List.Pairwise (fun d1 d2 => ∀ a ∈ d1, ∀ b ∈ d2, a < b) digits := by
  have hsortlt : (idxAsc ctx.ctxtPrimes).Sorted (· < ·) :=
    idxAsc_sorted_lt ctx.ctxtPrimes
  have hsetseq : (idxAsc ctx.ctxtPrimes).toFinset = ctx.ctxtPrimes :=
    idxAsc_toFinset ctx.ctxtPrimes
  have hsnodup : (idxAsc ctx.ctxtPrimes).Nodup := idxAsc_nodup ctx.ctxtPrimes
  rw [buildDigits] at h
  simp only at h
  set nD := (if (if ctx.ctxtPrimes.card < nDgts then ctx.ctxtPrimes.card
      else nDgts) = 0 then 1
    else if ctx.ctxtPrimes.card < nDgts then ctx.ctxtPrimes.card else nDgts) with hnD
  by_cases h1 : 1 < nD
  · rw [if_pos h1] at h
    set dlog := ctxLog llog ctx.moduli ctx.ctxtPrimes / ((nD : ℕ) : ℚ) with hdlog
    cases hdl : digitsLoop llog ctx.moduli dlog (nD - 1)
        (idxAsc ctx.ctxtPrimes) 0 dlog [] with
    | none =>
      rw [hdl] at h
      exact Option.noConfusion h
    | some out =>
      obtain ⟨accO, remO⟩ := out
      rw [hdl] at h
      simp only at h
      obtain ⟨chunks, hc1, hc2, hc3⟩ := digitsLoop_split _ _ _ _ _ _ _ _ _ hdl
      simp only at hc1 hc2
      rw [List.nil_append] at hc1
      have hs1 : accO.foldl (· ∪ ·) ∅ = chunks.flatten.toFinset := by
        rw [hc1, foldl_union_toFinset]
        simp
      have hflatsub : ∀ x ∈ chunks.flatten, x ∈ ctx.ctxtPrimes := by
        intro x hx
        rw [← hsetseq, List.mem_toFinset, hc2]
        exact List.mem_append_left _ hx
      have hremsub : ∀ x ∈ remO, x ∈ ctx.ctxtPrimes := by
        intro x hx
        rw [← hsetseq, List.mem_toFinset, hc2]
        exact List.mem_append_right _ hx
      have hdisj : ∀ x ∈ remO, x ∉ chunks.flatten := by
        intro x hx hcon
        have := hc2 ▸ hsnodup
        rw [List.nodup_append] at this
        exact this.2.2 hcon hx
      have hlast : ctx.ctxtPrimes \ accO.foldl (· ∪ ·) ∅ = remO.toFinset := by
        rw [hs1]
        ext x
        constructor
        · intro hx
          obtain ⟨hxc, hxf⟩ := Finset.mem_sdiff.mp hx
          rw [← hsetseq, List.mem_toFinset, hc2, List.mem_append] at hxc
          rw [List.mem_toFinset]
          rcases hxc with h' | h'
          · exact absurd (List.mem_toFinset.mpr h') hxf
          · exact h'
        · intro hx
          rw [List.mem_toFinset] at hx
          rw [Finset.mem_sdiff]
          exact ⟨hremsub x hx,
            fun hcon => hdisj x hx (List.mem_toFinset.mp hcon)⟩
      have hpairflat := (List.pairwise_append.mp (hc2 ▸ hsortlt))
      have hchunkpair : List.Pairwise
          (fun c1 c2 : List ℕ => ∀ x ∈ c1, ∀ y ∈ c2, x < y) chunks :=
        (List.pairwise_join.mp hpairflat.1).2
      by_cases hl0 : ctx.ctxtPrimes \ accO.foldl (· ∪ ·) ∅ = ∅
      · rw [if_pos hl0] at h
        have hdig : digits = chunks.map (fun c => c.toFinset) := by
          rw [← Option.some.inj h, hc1]
        have hrem0 : remO = [] := by
          rw [hlast] at hl0
          exact List.toFinset_eq_empty_iff _ |>.mp hl0
        refine ⟨?_, ?_, ?_⟩
        · intro d hd
          rw [hdig, List.mem_map] at hd
          obtain ⟨c, hc, hd⟩ := hd
          constructor
          · rw [← hd]
            intro x hx
            rw [List.mem_toFinset] at hx
            exact hflatsub x (List.mem_flatten.mpr ⟨c, hc, hx⟩)
          · rw [← hd]
            intro hcon
            exact hc3 c hc (List.toFinset_eq_empty_iff _ |>.mp hcon)
        · intro x
          constructor
          · intro hx
            rw [← hsetseq, List.mem_toFinset, hc2, hrem0, List.append_nil] at hx
            obtain ⟨c, hc, hxc⟩ := List.mem_flatten.mp hx
            exact ⟨c.toFinset, by rw [hdig]; exact List.mem_map_of_mem _ hc,
              List.mem_toFinset.mpr hxc⟩
          · intro ⟨d, hd, hxd⟩
            rw [hdig, List.mem_map] at hd
            obtain ⟨c, hc, hd⟩ := hd
            rw [← hd, List.mem_toFinset] at hxd
            exact hflatsub x (List.mem_flatten.mpr ⟨c, hc, hxd⟩)
        · rw [hdig, List.pairwise_map]
          apply hchunkpair.imp
          intro c1 c2 hcc
          intro a ha b hb
          exact hcc a (List.mem_toFinset.mp ha) b (List.mem_toFinset.mp hb)
      · rw [if_neg hl0] at h
        have hdig : digits = chunks.map (fun c => c.toFinset) ++ [remO.toFinset] := by
          rw [← Option.some.inj h, hlast, hc1]
        refine ⟨?_, ?_, ?_⟩
        · intro d hd
          rw [hdig, List.mem_append] at hd
          rcases hd with hd | hd
          · rw [List.mem_map] at hd
            obtain ⟨c, hc, hd⟩ := hd
            constructor
            · rw [← hd]
              intro x hx
              rw [List.mem_toFinset] at hx
              exact hflatsub x (List.mem_flatten.mpr ⟨c, hc, hx⟩)
            · rw [← hd]
              intro hcon
              exact hc3 c hc (List.toFinset_eq_empty_iff _ |>.mp hcon)
          · rw [List.mem_singleton] at hd
            subst hd
            constructor
            · intro x hx
              exact hremsub x (List.mem_toFinset.mp hx)
            · rw [← hlast]
              exact hl0
        · intro x
          constructor
          · intro hx
            rw [← hsetseq, List.mem_toFinset, hc2, List.mem_append] at hx
            rcases hx with hx | hx
            · obtain ⟨c, hc, hxc⟩ := List.mem_flatten.mp hx
              exact ⟨c.toFinset,
                by rw [hdig]; exact List.mem_append_left _ (List.mem_map_of_mem _ hc),
                List.mem_toFinset.mpr hxc⟩
            · exact ⟨remO.toFinset,
                by rw [hdig]; exact List.mem_append_right _ (List.mem_singleton.mpr rfl),
                List.mem_toFinset.mpr hx⟩
          · intro ⟨d, hd, hxd⟩
            rw [hdig, List.mem_append] at hd
            rcases hd with hd | hd
            · rw [List.mem_map] at hd
              obtain ⟨c, hc, hd⟩ := hd
              rw [← hd, List.mem_toFinset] at hxd
              exact hflatsub x (List.mem_flatten.mpr ⟨c, hc, hxd⟩)
            · rw [List.mem_singleton] at hd
              rw [hd, List.mem_toFinset] at hxd
              exact hremsub x hxd
        · rw [hdig, List.pairwise_append]
          refine ⟨?_, by simp, ?_⟩
          · rw [List.pairwise_map]
            apply hchunkpair.imp
            intro c1 c2 hcc
            intro a ha b hb
            exact hcc a (List.mem_toFinset.mp ha) b (List.mem_toFinset.mp hb)
          · intro d1 hd1 d2 hd2
            rw [List.mem_map] at hd1
            obtain ⟨c, hc, hd1⟩ := hd1
            rw [List.mem_singleton] at hd2
            subst hd2
            intro a ha b hb
            rw [← hd1, List.mem_toFinset] at ha
            rw [List.mem_toFinset] at hb
            exact hpairflat.2.2 a (List.mem_flatten.mpr ⟨c, hc, ha⟩) b hb
  · rw [if_neg h1] at h
    have hdig : digits = [ctx.ctxtPrimes] := (Option.some.inj h).symm
    subst hdig
    refine ⟨?_, ?_, by simp⟩
    · intro d hd
      rw [List.mem_singleton] at hd
      subst hd
      exact ⟨le_rfl, Finset.nonempty_iff_ne_empty.mp hne⟩
    · intro x
      simp

lemma specialLoop_preserves (pp : ℕ → Bool) (fuelIn : ℕ) (llog : ℚ → ℚ) (target : ℚ) :
    ∀ (n : ℕ) (g : PrimeGenerator) (logSoFar : ℚ) (ctx ctx' : FHEcontext),
      specialLoop pp fuelIn llog target n g logSoFar ctx = some ctx' →
      ctx'.digits = ctx.digits ∧ ctx'.ctxtPrimes = ctx.ctxtPrimes := by
  intro n
  induction n with
  | zero =>
    intro g logSoFar ctx ctx' h
    simp [specialLoop] at h
  | succ n ih =>
    intro g logSoFar ctx ctx' h
    rw [specialLoop] at h
    by_cases hlt : logSoFar < target
    · rw [if_pos hlt] at h
      cases hnext : nextGo pp fuelIn g with
      | error e =>
        simp only [hnext] at h
        exact Option.noConfusion h
      | ok pr =>
        obtain ⟨q, g1⟩ := pr
        simp only [hnext] at h
        by_cases hin : ctx.inChain q
        · rw [if_pos hin] at h
          exact ih g1 logSoFar ctx ctx' h
        · rw [if_neg hin] at h
          cases hadd : AddSpecialPrime ctx q with
          | none =>
            simp only [hadd] at h
            exact Option.noConfusion h
          | some ctx1 =>
            simp only [hadd] at h
            obtain ⟨_, _, _, hctxt, _, hdig⟩ := AddSpecialPrime_ok hadd
            obtain ⟨a1, a2⟩ := ih g1 _ ctx1 ctx' h
            exact ⟨a1.trans hdig, a2.trans hctxt⟩
    · rw [if_neg hlt] at h
      rw [← Option.some.inj h]
      exact ⟨rfl, rfl⟩

/-- C5.  When `addSpecialPrimes` succeeds (starting from a context with
no special primes), the sum of `log q` over the registered special
primes is at least `logOfSpecialPrimes = maxDigitLog + log(nDgts) +
log(2*stdev) + log(p2e)`, where `maxDigitLog` is the largest digit
log-product and `p2e = p^r * p^(e-e')` when bootstrappable (`p2r`
otherwise). -/
theorem claim_C5_addSpecialPrimes_budget
    (pp : ℕ → Bool) (fuelOut fuelIn spNbits : ℕ) (llog : ℚ → ℚ)
    (pVal p2r e ePrime : ℕ) (wbb : Bool) (stdev : ℚ) (m nDgts : ℕ)
    (ctx ctx' : FHEcontext)
    (hinit : ctx.specialPrimes = ∅)
    (hvalid : ∀ i ∈ ctx.ctxtPrimes, i < ctx.moduli.length)
    (hne : ctx.ctxtPrimes.Nonempty)
    (h : addSpecialPrimes pp fuelOut fuelIn spNbits llog pVal p2r e ePrime
      wbb stdev m nDgts ctx = some ctx') :
    (ctx'.digits.map (fun s => ctxLog llog ctx'.moduli s)).foldl max 0
      + llog ((ctx'.digits.length : ℕ) : ℚ) + llog (stdev * 2)
      + llog (((if wbb then p2r * pVal^(e - ePrime) else p2r) : ℕ) : ℚ)
      ≤ ∑ i ∈ ctx'.specialPrimes, llog ((ctx'.moduli.getD i 0 : ℕ) : ℚ) := by
  rw [addSpecialPrimes] at h
  simp only at h
  cases hbd : buildDigits llog ctx nDgts with
  | none =>
    rw [hbd] at h
    exact Option.noConfusion h
  | some digits =>
    simp only [hbd] at h
    cases hmk : mkPrimeGenerator spNbits _ m with
    | none =>
      rw [hmk] at h
      exact Option.noConfusion h
    | some g =>
      rw [hmk] at h
      have hsubset := (buildDigits_spec llog ctx nDgts digits hne hbd).1
      obtain ⟨a1, a2, a3, a4, a5⟩ := specialLoop_spec pp fuelIn llog _ fuelOut g 0
        { ctx with digits := digits } ctx'
        (by
          show ∀ i ∈ ctx.specialPrimes, i < ctx.moduli.length
          rw [hinit]
          intro i hi
          simp at hi)
        (by
          show (0:ℚ) = ∑ i ∈ ctx.specialPrimes, llog ((ctx.moduli.getD i 0 : ℕ) : ℚ)
          rw [hinit]
          simp) h
      obtain ⟨suff, hsuff⟩ := a5
      have hdigeq : ctx'.digits = digits := a2
      have hmodpre : ∀ s ∈ digits, ctxLog llog ctx'.moduli s = ctxLog llog ctx.moduli s := by
        intro s hs
        unfold ctxLog
        apply Finset.sum_congr rfl
        intro i hi
        have hilt : i < ctx.moduli.length := hvalid i ((hsubset s hs).1 hi)
        rw [hsuff]
        show llog (((ctx.moduli ++ suff).getD i 0 : ℕ) : ℚ) = _
        rw [List.getD_append _ _ _ _ hilt]
      have hmapeq : ctx'.digits.map (fun s => ctxLog llog ctx'.moduli s) =
          digits.map (fun s => ctxLog llog ctx.moduli s) := by
        rw [hdigeq]
        exact List.map_congr_left hmodpre
      rw [hmapeq, hdigeq]
      exact a1

/-- C6.  After a successful `addSpecialPrimes` the digit sequence is a
partition of the ctxt primes: every digit is non-empty, their union is
`ctxtPrimes`, they are pairwise disjoint, element-wise increasing, and
ordered by minimum index. -/
theorem claim_C6_digit_partition
    (pp : ℕ → Bool) (fuelOut fuelIn spNbits : ℕ) (llog : ℚ → ℚ)
    (pVal p2r e ePrime : ℕ) (wbb : Bool) (stdev : ℚ) (m nDgts : ℕ)
    (ctx ctx' : FHEcontext)
    (hne : ctx.ctxtPrimes.Nonempty)
    (h : addSpecialPrimes pp fuelOut fuelIn spNbits llog pVal p2r e ePrime
      wbb stdev m nDgts ctx = some ctx') :
    (∀ d ∈ ctx'.digits, d ≠ ∅) ∧
    (∀ x, x ∈ ctx'.ctxtPrimes ↔ ∃ d ∈ ctx'.digits, x ∈ d) ∧
    List.Pairwise (fun d1 d2 => Disjoint d1 d2) ctx'.digits ∧
    List.Pairwise (fun d1 d2 => ∀ a ∈ d1, ∀ b ∈ d2, a < b) ctx'.digits ∧
    List.Pairwise (fun d1 d2 => ∀ (h1 : d1.Nonempty) (h2 : d2.Nonempty),
      d1.min' h1 < d2.min' h2) ctx'.digits := by
  rw [addSpecialPrimes] at h
  simp only at h
  cases hbd : buildDigits llog ctx nDgts with
  | none =>
    rw [hbd] at h
    exact Option.noConfusion h
  | some digits =>
    simp only [hbd] at h
    cases hmk : mkPrimeGenerator spNbits _ m with
    | none =>
      rw [hmk] at h
      exact Option.noConfusion h
    | some g =>
      rw [hmk] at h
      obtain ⟨hsub, hunion, hlt⟩ := buildDigits_spec llog ctx nDgts digits hne hbd
      obtain ⟨hdig, hctxt⟩ := specialLoop_preserves pp fuelIn llog _ fuelOut g 0
        { ctx with digits := digits } ctx' h
      have hdigeq : ctx'.digits = digits := hdig
      have hctxteq : ctx'.ctxtPrimes = ctx.ctxtPrimes := hctxt
      rw [hdigeq, hctxteq]
      refine ⟨fun d hd => (hsub d hd).2, hunion, ?_, hlt, ?_⟩
      · apply hlt.imp
        intro d1 d2 h12
        rw [Finset.disjoint_left]
        intro a ha hcon
        exact absurd (h12 a ha a hcon) (lt_irrefl a)
      · apply hlt.imp
        intro d1 d2 h12 h1 h2
        exact h12 _ (d1.min'_mem h1) _ (d2.min'_mem h2)

/-- Primality oracle for the chain-building witnesses: accepts the
primes 29, 31, 53, 59, 61. -/
def ppC (q : ℕ) : Bool := q == 29 || q == 31 || q == 53 || q == 59 || q == 61

/-- Abstract logarithm used by the chain-building witnesses. -/
def llogD (q : ℚ) : ℚ :=
  if q = 1 then 0 else if q = 2 then 1 else if q = 59 then 6 else 4

/-- Empty context. -/
def ctx0 : FHEcontext := ⟨[], ∅, ∅, ∅, []⟩

/-- Context after the ctxt-prime pass of the witnesses. -/
def ctxA : FHEcontext := ⟨[53, 61], ∅, insert 1 (insert 0 ∅), ∅, []⟩

unseal Rat.add Rat.sub Rat.mul Rat.inv in
/-- Witness for C4: two 6-bit ctxt primes of `log2`-weight 6 each are
registered to reach `nBits = 7`, and dropping the last one (index 1)
leaves only weight 6 < 7. -/
theorem claim_C4_witness :
    addCtxtPrimes ppC 10 100 6 (fun _ => (6:ℚ)) ctx0 1 7 = some ctxA ∧
    ((7:ℚ) ≤ ∑ i ∈ ctxA.ctxtPrimes, (fun _ => (6:ℚ)) (ctxA.moduli.getD i 0) ∧
     (0 < (7:ℚ) → ∃ last ∈ ctxA.ctxtPrimes, (∀ i ∈ ctxA.ctxtPrimes, i ≤ last) ∧
        ∑ i ∈ ctxA.ctxtPrimes.erase last,
          (fun _ => (6:ℚ)) (ctxA.moduli.getD i 0) < 7)) :=
  ⟨rfl,
    claim_C4_addCtxtPrimes_budget ppC 10 100 6 (fun _ => (6:ℚ)) ctx0 ctxA 1 7
      rfl rfl⟩

/-- Context after the C5 witness run of `addSpecialPrimes` (one digit,
specials 29 and 31). -/
def ctxB : FHEcontext :=
  ⟨[53, 61, 29, 31], ∅, insert 1 (insert 0 ∅), insert 3 (insert 2 ∅),
    [insert 1 (insert 0 ∅)]⟩

unseal Rat.add Rat.sub Rat.mul Rat.inv in
/-- Witness for C5: with one digit of log-product 8, the special primes
29 and 31 (log 4 each) are registered to reach the budget 8. -/
theorem claim_C5_witness :
    addSpecialPrimes ppC 10 100 6 llogD 2 1 0 0 false (1/2) 1 1 ctxA = some ctxB ∧
    (ctxB.digits.map (fun s => ctxLog llogD ctxB.moduli s)).foldl max 0
      + llogD ((ctxB.digits.length : ℕ) : ℚ) + llogD ((1:ℚ)/2 * 2)
      + llogD (((if false then 1 * 2^(0 - 0) else 1) : ℕ) : ℚ)
      ≤ ∑ i ∈ ctxB.specialPrimes, llogD ((ctxB.moduli.getD i 0 : ℕ) : ℚ) :=
  ⟨rfl,
    claim_C5_addSpecialPrimes_budget ppC 10 100 6 llogD 2 1 0 0 false (1/2) 1 1
      ctxA ctxB rfl (by decide) (by decide) rfl⟩

/-- Context after the C6 witness run of `addSpecialPrimes` (two digits
`{0}` and `{1}`, special prime 59). -/
def ctxC : FHEcontext :=
  ⟨[53, 61, 59], ∅, insert 1 (insert 0 ∅), insert 2 ∅,
    [insert 0 ∅, insert 1 (insert 0 ∅) \ (∅ ∪ insert 0 ∅)]⟩

unseal Rat.add Rat.sub Rat.mul Rat.inv in
/-- Witness for C6: the two digits `{0}` and `{1}` partition the ctxt
primes `{0, 1}`. -/
theorem claim_C6_witness :
    addSpecialPrimes ppC 10 100 6 llogD 2 1 0 0 false (1/2) 1 2 ctxA = some ctxC ∧
    ((∀ d ∈ ctxC.digits, d ≠ ∅) ∧
     (∀ x, x ∈ ctxC.ctxtPrimes ↔ ∃ d ∈ ctxC.digits, x ∈ d) ∧
     List.Pairwise (fun d1 d2 => Disjoint d1 d2) ctxC.digits ∧
     List.Pairwise (fun d1 d2 => ∀ a ∈ d1, ∀ b ∈ d2, a < b) ctxC.digits ∧
     List.Pairwise (fun d1 d2 => ∀ (h1 : d1.Nonempty) (h2 : d2.Nonempty),
       d1.min' h1 < d2.min' h2) ctxC.digits) :=
  have h : addSpecialPrimes ppC 10 100 6 llogD 2 1 0 0 false (1/2) 1 2 ctxA
      = some ctxC := rfl
  ⟨h, claim_C6_digit_partition ppC 10 100 6 llogD 2 1 0 0 false (1/2) 1 2
      ctxA ctxC (by decide) h⟩

lemma nodup_concat_of_not_mem {l : List ℕ} {q : ℕ}
    (hn : l.Nodup) (hq : q ∉ l) : (l ++ [q]).Nodup := by
  simp [List.nodup_append, hn, hq]

lemma AddSmallPrime_inChain {ctx : FHEcontext} {q : ℕ}
    (h : ctx.inChain q = true) : AddSmallPrime ctx q = none := by
  simp [AddSmallPrime, h]

lemma AddCtxtPrime_inChain {ctx : FHEcontext} {q : ℕ}
    (h : ctx.inChain q = true) : AddCtxtPrime ctx q = none := by
  simp [AddCtxtPrime, h]

lemma AddSpecialPrime_inChain {ctx : FHEcontext} {q : ℕ}
    (h : ctx.inChain q = true) : AddSpecialPrime ctx q = none := by
  simp [AddSpecialPrime, h]

lemma specialLoop_skip (pp : ℕ → Bool) (fuelIn : ℕ) (llog : ℚ → ℚ)
    (target : ℚ) (n : ℕ) (g g1 : PrimeGenerator) (logSoFar : ℚ)
    (ctx : FHEcontext) (q : ℕ)
    (hlt : logSoFar < target) (hng : nextGo pp fuelIn g = .ok (q, g1))
    (hin : ctx.inChain q = true) :
    specialLoop pp fuelIn llog target (n+1) g logSoFar ctx =
      specialLoop pp fuelIn llog target n g1 logSoFar ctx := by
  rw [specialLoop, if_pos hlt]
  simp only [hng, hin, if_true]

lemma smallLoop_nodup (pp : ℕ → Bool) (fuel spNbits m : ℕ) :
    ∀ (sizes : List ℕ) (lastSz : ℕ) (gen : Option PrimeGenerator)
      (ctx ctx' : FHEcontext),
      smallLoop pp fuel spNbits m sizes lastSz gen ctx = some ctx' →
      ctx.moduli.Nodup → ctx'.moduli.Nodup := by
  intro sizes
  induction sizes with
  | nil =>
    intro lastSz gen ctx ctx' h hn
    rw [smallLoop] at h
    exact (Option.some.inj h) ▸ hn
  | cons sz rest ih =>
    intro lastSz gen ctx ctx' h hn
    rw [smallLoop] at h
    cases hg : (if sz ≠ lastSz then mkPrimeGenerator spNbits sz m else gen) with
    | none => simp only [hg] at h; exact Option.noConfusion h
    | some g =>
      simp only [hg] at h
      cases hng : nextGo pp fuel g with
      | error e => simp only [hng] at h; exact Option.noConfusion h
      | ok qg =>
        obtain ⟨q, g1⟩ := qg
        simp only [hng] at h
        cases hadd : AddSmallPrime ctx q with
        | none => simp only [hadd] at h; exact Option.noConfusion h
        | some ctx1 =>
          simp only [hadd] at h
          obtain ⟨hnin, hmod, _⟩ := AddSmallPrime_ok hadd
          exact ih sz (some g1) ctx1 ctx' h
            (hmod ▸ nodup_concat_of_not_mem hn hnin)

lemma ctxtLoop_nodup (pp : ℕ → Bool) (fuel : ℕ) (log2q : ℕ → ℚ) (nBits : ℚ) :
    ∀ (n : ℕ) (g : PrimeGenerator) (bitlen : ℚ) (ctx ctx' : FHEcontext),
      ctxtLoop pp fuel log2q nBits n g bitlen ctx = some ctx' →
      ctx.moduli.Nodup → ctx'.moduli.Nodup := by
  intro n
  induction n with
  | zero =>
    intro g bitlen ctx ctx' h _
    rw [ctxtLoop] at h
    exact Option.noConfusion h
  | succ n ih =>
    intro g bitlen ctx ctx' h hn
    rw [ctxtLoop] at h
    by_cases hb : bitlen < nBits
    · rw [if_pos hb] at h
      cases hng : nextGo pp fuel g with
      | error e => simp only [hng] at h; exact Option.noConfusion h
      | ok qg =>
        obtain ⟨q, g1⟩ := qg
        simp only [hng] at h
        cases hadd : AddCtxtPrime ctx q with
        | none => simp only [hadd] at h; exact Option.noConfusion h
        | some ctx1 =>
          simp only [hadd] at h
          obtain ⟨hnin, hmod, _⟩ := AddCtxtPrime_ok hadd
          exact ih g1 (bitlen + log2q q) ctx1 ctx' h
            (hmod ▸ nodup_concat_of_not_mem hn hnin)
    · rw [if_neg hb] at h
      exact (Option.some.inj h) ▸ hn

lemma specialLoop_nodup (pp : ℕ → Bool) (fuelIn : ℕ) (llog : ℚ → ℚ)
    (target : ℚ) :
    ∀ (n : ℕ) (g : PrimeGenerator) (logSoFar : ℚ) (ctx ctx' : FHEcontext),
      specialLoop pp fuelIn llog target n g logSoFar ctx = some ctx' →
      ctx.moduli.Nodup → ctx'.moduli.Nodup := by
  intro n
  induction n with
  | zero =>
    intro g logSoFar ctx ctx' h _
    rw [specialLoop] at h
    exact Option.noConfusion h
  | succ n ih =>
    intro g logSoFar ctx ctx' h hn
    rw [specialLoop] at h
    by_cases hb : logSoFar < target
    · rw [if_pos hb] at h
      cases hng : nextGo pp fuelIn g with
      | error e => simp only [hng] at h; exact Option.noConfusion h
      | ok qg =>
        obtain ⟨q, g1⟩ := qg
        simp only [hng] at h
        by_cases hin : ctx.inChain q = true
        · simp only [hin, if_true] at h
          exact ih g1 logSoFar ctx ctx' h hn
        · simp only [hin, if_false] at h
          cases hadd : AddSpecialPrime ctx q with
          | none => simp only [hadd] at h; exact Option.noConfusion h
          | some ctx1 =>
            simp only [hadd] at h
            obtain ⟨hnin, hmod, _⟩ := AddSpecialPrime_ok hadd
            exact ih g1 (logSoFar + llog (q : ℚ)) ctx1 ctx' h
              (hmod ▸ nodup_concat_of_not_mem hn hnin)
    · rw [if_neg hb] at h
      exact (Option.some.inj h) ▸ hn

lemma addSmallPrimes_nodup (pp : ℕ → Bool) (fuel spNbits : ℕ)
    (ctx : FHEcontext) (m resolution : ℕ) (ctx' : FHEcontext)
    (h : addSmallPrimes pp fuel spNbits ctx m resolution = some ctx')
    (hn : ctx.moduli.Nodup) : ctx'.moduli.Nodup := by
  rw [addSmallPrimes] at h
  by_cases hm : m = 0 ∨ 2^20 < m
  · rw [if_pos hm] at h
    exact Option.noConfusion h
  · rw [if_neg hm] at h
    simp only at h
    cases hs : smallSizesSeed spNbits with
    | none => simp only [hs] at h; exact Option.noConfusion h
    | some seed =>
      simp only [hs] at h
      exact smallLoop_nodup pp fuel spNbits m _ _ _ _ _ h hn

lemma addCtxtPrimes_nodup (pp : ℕ → Bool) (fuelOut fuelIn spNbits : ℕ)
    (log2q : ℕ → ℚ) (ctx : FHEcontext) (m : ℕ) (nBits : ℚ)
    (ctx' : FHEcontext)
    (h : addCtxtPrimes pp fuelOut fuelIn spNbits log2q ctx m nBits = some ctx')
    (hn : ctx.moduli.Nodup) : ctx'.moduli.Nodup := by
  rw [addCtxtPrimes] at h
  cases hg : mkPrimeGenerator spNbits spNbits m with
  | none => simp only [hg] at h; exact Option.noConfusion h
  | some g =>
    simp only [hg] at h
    exact ctxtLoop_nodup pp fuelIn log2q nBits fuelOut g 0 ctx ctx' h hn

lemma addSpecialPrimes_nodup (pp : ℕ → Bool) (fuelOut fuelIn spNbits : ℕ)
    (llog : ℚ → ℚ) (pVal p2r e ePrime : ℕ) (wbb : Bool) (stdev : ℚ)
    (m nDgts : ℕ) (ctx ctx' : FHEcontext)
    (h : addSpecialPrimes pp fuelOut fuelIn spNbits llog pVal p2r e ePrime
      wbb stdev m nDgts ctx = some ctx')
    (hn : ctx.moduli.Nodup) : ctx'.moduli.Nodup := by
  rw [addSpecialPrimes] at h
  simp only at h
  cases hbd : buildDigits llog ctx nDgts with
  | none =>
    rw [hbd] at h
    exact Option.noConfusion h
  | some digits =>
    simp only [hbd] at h
    cases hmk : mkPrimeGenerator spNbits _ m with
    | none =>
      rw [hmk] at h
      exact Option.noConfusion h
    | some g =>
      rw [hmk] at h
      exact specialLoop_nodup pp fuelIn llog _ fuelOut g 0 _ ctx' h hn

/-- C8 (corrected).  Duplicate candidates are handled differently across
the three passes: every `Add*Prime` refuses a candidate already in the
chain (the `assert(!inChain(q))` aborts, returning `none`, rather than
skipping), only the registration loop of `addSpecialPrimes` skips an
in-chain candidate and continues; still, in any successful run of each
pass the moduli list stays duplicate-free, so each prime value is
registered at most once per context. -/
theorem claim_C8_duplicate_handling :
    (∀ (ctx : FHEcontext) (q : ℕ), ctx.inChain q = true →
      AddSmallPrime ctx q = none ∧ AddCtxtPrime ctx q = none ∧
      AddSpecialPrime ctx q = none) ∧
    (∀ (pp : ℕ → Bool) (fuelIn : ℕ) (llog : ℚ → ℚ) (target : ℚ) (n : ℕ)
      (g g1 : PrimeGenerator) (logSoFar : ℚ) (ctx : FHEcontext) (q : ℕ),
      logSoFar < target → nextGo pp fuelIn g = .ok (q, g1) →
      ctx.inChain q = true →
      specialLoop pp fuelIn llog target (n+1) g logSoFar ctx =
        specialLoop pp fuelIn llog target n g1 logSoFar ctx) ∧
    (∀ (pp : ℕ → Bool) (fuel spNbits : ℕ) (ctx : FHEcontext)
      (m resolution : ℕ) (ctx' : FHEcontext),
      addSmallPrimes pp fuel spNbits ctx m resolution = some ctx' →
      ctx.moduli.Nodup → ctx'.moduli.Nodup) ∧
    (∀ (pp : ℕ → Bool) (fuelOut fuelIn spNbits : ℕ) (log2q : ℕ → ℚ)
      (ctx : FHEcontext) (m : ℕ) (nBits : ℚ) (ctx' : FHEcontext),
      addCtxtPrimes pp fuelOut fuelIn spNbits log2q ctx m nBits = some ctx' →
      ctx.moduli.Nodup → ctx'.moduli.Nodup) ∧
    (∀ (pp : ℕ → Bool) (fuelOut fuelIn spNbits : ℕ) (llog : ℚ → ℚ)
      (pVal p2r e ePrime : ℕ) (wbb : Bool) (stdev : ℚ) (m nDgts : ℕ)
      (ctx ctx' : FHEcontext),
      addSpecialPrimes pp fuelOut fuelIn spNbits llog pVal p2r e ePrime
        wbb stdev m nDgts ctx = some ctx' →
      ctx.moduli.Nodup → ctx'.moduli.Nodup) :=
  ⟨fun ctx q h => ⟨AddSmallPrime_inChain h, AddCtxtPrime_inChain h,
      AddSpecialPrime_inChain h⟩,
    fun pp fuelIn llog target n g g1 logSoFar ctx q hlt hng hin =>
      specialLoop_skip pp fuelIn llog target n g g1 logSoFar ctx q hlt hng hin,
    fun pp fuel spNbits ctx m resolution ctx' h hn =>
      addSmallPrimes_nodup pp fuel spNbits ctx m resolution ctx' h hn,
    fun pp fuelOut fuelIn spNbits log2q ctx m nBits ctx' h hn =>
      addCtxtPrimes_nodup pp fuelOut fuelIn spNbits log2q ctx m nBits ctx' h hn,
    fun pp fuelOut fuelIn spNbits llog pVal p2r e ePrime wbb stdev m nDgts
        ctx ctx' h hn =>
      addSpecialPrimes_nodup pp fuelOut fuelIn spNbits llog pVal p2r e ePrime
        wbb stdev m nDgts ctx ctx' h hn⟩

/-- A context that already holds the prime 29, registered as a small
prime. -/
def ctxD : FHEcontext := ⟨[29], insert 0 ∅, ∅, ∅, []⟩

/-- Counterexample to the claim that all three passes skip duplicate
candidates: in a context already holding 29, the ctxt-prime pass whose
generator emits 29 does not skip it — `AddCtxtPrime`'s
`assert(!inChain(q))` fires and the pass aborts with `none`. -/
theorem claim_C8_counterexample :
    ctxD.inChain 29 = true ∧
    mkPrimeGenerator 5 5 1 = some ⟨5, 1, 4, 8⟩ ∧
    (nextGo ppW 100 ⟨5, 1, 4, 8⟩).toOption.map Prod.fst = some 29 ∧
    AddCtxtPrime ctxD 29 = none ∧
    addCtxtPrimes ppW 10 100 5 (fun _ => (1:ℚ)) ctxD 1 1 = none :=
  ⟨rfl, rfl, rfl, rfl, rfl⟩

/-- Modelled from the spec: the token alphabet shared by the binary and
textual `ModuliSizes` serializations.  `write_raw_int`,
`write_raw_double`, `IndexSet::write/read` and the stream insertions of
`operator<<` are primitives outside this file's sources; each primitive
datum they move is one abstract token (the size doubles kept exact as
`ℚ`, the claim's "modulo floating-point representation"), and the
bracket characters of the textual format are tokens of their own. -/
inductive SerTok where
  | rawInt (n : ℕ)
  | rawDouble (q : ℚ)
  | rawSet (s : Finset ℕ)
  | lbrack
  | rbrack
deriving DecidableEq

/-- Modelled from the spec: `::write(str, e)` for one entry
(primeChain.cpp lines 41-45) emits the raw double then the raw set. -/
def entryWrite (e : MSEntry) : List SerTok :=
  [SerTok.rawDouble e.1, SerTok.rawSet e.2]

/-- Modelled from the spec: `::read(str, e)` for one entry
(primeChain.cpp lines 47-51) consumes a raw double then a raw set. -/
def entryRead : List SerTok → Option (MSEntry × List SerTok)
  | SerTok.rawDouble q :: SerTok.rawSet s :: rest => some ((q, s), rest)
  | _ => none

/-- `ModuliSizes::write` (primeChain.cpp lines 245-250): the raw entry
count followed by the entries. -/
def msWrite (sizes : List MSEntry) : List SerTok :=
  SerTok.rawInt sizes.length :: sizes.flatMap entryWrite

/-- The entry-reading loop of `ModuliSizes::read` (primeChain.cpp lines
256-257), reading `n` entries. -/
def msReadGo : ℕ → List SerTok → Option (List MSEntry × List SerTok)
  | 0, rest => some ([], rest)
  | n+1, toks =>
    match entryRead toks with
    | none => none
    | some (e, rest) =>
      match msReadGo n rest with
      | none => none
      | some (l, rest1) => some (e :: l, rest1)

/-- `ModuliSizes::read` (primeChain.cpp lines 252-258): the raw count,
then that many entries. -/
def msRead (toks : List SerTok) : Option (List MSEntry × List SerTok) :=
  match toks with
  | SerTok.rawInt n :: rest => msReadGo n rest
  | _ => none

/-- Modelled from the spec: `operator<<` for one entry (primeChain.cpp
lines 29-32) prints `'[' size set ']'` (the trailing newline is
whitespace, not a token). -/
def entryPrint (e : MSEntry) : List SerTok :=
  [SerTok.lbrack, SerTok.rawDouble e.1, SerTok.rawSet e.2, SerTok.rbrack]

/-- Modelled from the spec: `operator>>` for one entry (primeChain.cpp
lines 33-40); `seekPastChar` on a well-formed stream consumes the
bracket. -/
def entryScan : List SerTok → Option (MSEntry × List SerTok)
  | SerTok.lbrack :: SerTok.rawDouble q :: SerTok.rawSet s ::
      SerTok.rbrack :: rest => some ((q, s), rest)
  | _ => none

/-- `operator<<` for `ModuliSizes` (primeChain.cpp lines 229-232):
`'[' count entries ']'`. -/
def msPrint (sizes : List MSEntry) : List SerTok :=
  SerTok.lbrack :: SerTok.rawInt sizes.length ::
    sizes.flatMap entryPrint ++ [SerTok.rbrack]

/-- The entry-scanning loop of `operator>>` for `ModuliSizes`
(primeChain.cpp lines 239-240), scanning `n` entries. -/
def msScanGo : ℕ → List SerTok → Option (List MSEntry × List SerTok)
  | 0, rest => some ([], rest)
  | n+1, toks =>
    match entryScan toks with
    | none => none
    | some (e, rest) =>
      match msScanGo n rest with
      | none => none
      | some (l, rest1) => some (e :: l, rest1)

/-- `operator>>` for `ModuliSizes` (primeChain.cpp lines 233-243): seek
past `'['`, read the count and the entries, seek past `']'`. -/
def msScan (toks : List SerTok) : Option (List MSEntry × List SerTok) :=
  match toks with
  | SerTok.lbrack :: SerTok.rawInt n :: rest =>
    match msScanGo n rest with
    | some (l, SerTok.rbrack :: rest1) => some (l, rest1)
    | _ => none
  | _ => none

lemma msReadGo_write (sizes : List MSEntry) (extra : List SerTok) :
    msReadGo sizes.length (sizes.flatMap entryWrite ++ extra) =
      some (sizes, extra) := by
  induction sizes with
  | nil => simp [msReadGo]
  | cons e rest ih =>
    simp only [List.length_cons, List.flatMap_cons, List.append_assoc]
    rw [msReadGo]
    simp only [entryWrite, List.cons_append, entryRead, List.nil_append, ih,
      Prod.mk.eta]

lemma msScanGo_print (sizes : List MSEntry) (extra : List SerTok) :
    msScanGo sizes.length (sizes.flatMap entryPrint ++ extra) =
      some (sizes, extra) := by
  induction sizes with
  | nil => simp [msScanGo]
  | cons e rest ih =>
    simp only [List.length_cons, List.flatMap_cons, List.append_assoc]
    rw [msScanGo]
    simp only [entryPrint, List.cons_append, entryScan, List.nil_append, ih,
      Prod.mk.eta]

lemma msRead_cons (n : ℕ) (rest : List SerTok) :
    msRead (SerTok.rawInt n :: rest) = msReadGo n rest := rfl

lemma msScan_cons (n : ℕ) (rest : List SerTok) :
    msScan (SerTok.lbrack :: SerTok.rawInt n :: rest) =
      match msScanGo n rest with
      | some (l, SerTok.rbrack :: rest1) => some (l, rest1)
      | _ => none := rfl

/-- C9.  Binary and textual serialization of a `ModuliSizes` table
round-trip: reading back what `write` (respectively `operator<<`) emits
returns the original entry list — size and index set entry-for-entry —
and leaves the rest of the stream untouched. -/
theorem claim_C9_serialization_roundtrip (sizes : List MSEntry)
    (extra : List SerTok) :
    msRead (msWrite sizes ++ extra) = some (sizes, extra) ∧
    msScan (msPrint sizes ++ extra) = some (sizes, extra) := by
  constructor
  · have h0 : msWrite sizes ++ extra =
        SerTok.rawInt sizes.length :: (sizes.flatMap entryWrite ++ extra) := by
      simp [msWrite]
    rw [h0, msRead_cons]
    exact msReadGo_write sizes extra
  · have h1 : msPrint sizes ++ extra =
        SerTok.lbrack :: SerTok.rawInt sizes.length ::
          (sizes.flatMap entryPrint ++ ([SerTok.rbrack] ++ extra)) := by
      simp [msPrint]
    rw [h1, msScan_cons, msScanGo_print]
    rfl
